import Mathlib

/-! Concurrent C++: a verification development.

Shallow embedding of programs of the repository:

* `chapter-6/parallel_quicksort_benchmark.cpp`: `quick_sort`, `quick_sort_parallel`;
* `Chapter-4/ThreadSafeQueue.cpp`: `ThreadsafeQueue<T>`;
* `Chapter-4/FutureBasedTaskQueue.cpp`: `TaskQueue`;
* `Chapter-4/shared_future.cpp`: `shared_future_example`.

A `std::list<T>` is a `List α`, its front being the head.  Operations that run under a
mutex are atomic steps on an explicit state, so that a history of calls is a list of
operations applied one after the other.
-/

/-! ## Definitions: `chapter-6/parallel_quicksort_benchmark.cpp` -/

namespace QuickSort

/-- The bidirectional-iterator algorithm of libstdc++ for `std::partition`, the one a
`std::list` selects.  `first` walks forward over the elements that satisfy `pred`; at the
first `x` that does not, `last` walks backward over the elements that do not satisfy `pred`
(they stay where they are, behind the range), and the first `y` it meets that does is
swapped with `x`; the loop goes on with the range in between.  The first argument bounds
the number of rounds by the length of the range.  The result is the pair (range before the
returned iterator, range from the returned iterator on). -/
def partition_loop {α : Type} (pred : α → Bool) : Nat → List α → List α × List α
  | 0, w => ([], w)
  | _ + 1, [] => ([], [])
  | n + 1, x :: w =>
    if pred x then
      ((x :: (partition_loop pred n w).1), (partition_loop pred n w).2)
    else
      match (w.reverse.dropWhile (fun t => !pred t)) with
      | [] => ([], x :: w)
      | y :: mid_rev =>
        (y :: (partition_loop pred n mid_rev.reverse).1,
         (partition_loop pred n mid_rev.reverse).2 ++
           x :: (w.reverse.takeWhile (fun t => !pred t)).reverse)

/-- `std::partition` of libstdc++ on a whole `std::list`. -/
def bidirectional_partition {α : Type} (pred : α → Bool) (l : List α) : List α × List α :=
  partition_loop pred l.length l

/-- The contract of `std::partition(first, last, pred)`, as the C++ standard gives it: the
range is rearranged (a permutation of what it held), every element that satisfies `pred`
is placed before every element that does not, and the returned iterator is the start of
the second group.  `run pred l` is the pair (the range before the returned iterator, the
range from the returned iterator on).  Nothing is promised on the relative order inside
either group. -/
structure StdPartition (α : Type) where
  run : (α → Bool) → List α → List α × List α
  perm : ∀ (pred : α → Bool) (l : List α), List.Perm ((run pred l).1 ++ (run pred l).2) l
  fst_sat : ∀ (pred : α → Bool) (l : List α) (x : α), x ∈ (run pred l).1 → pred x = true
  snd_unsat :
    ∀ (pred : α → Bool) (l : List α) (x : α), x ∈ (run pred l).2 → pred x = false

/-- The `std::partition` of libstdc++ meets the contract. -/
def libstdcxx (α : Type) : StdPartition α :=
  have contract : ∀ (pred : α → Bool) (n : Nat) (w : List α), w.length ≤ n →
      List.Perm ((partition_loop pred n w).1 ++ (partition_loop pred n w).2) w ∧
      (∀ x ∈ (partition_loop pred n w).1, pred x = true) ∧
      (∀ x ∈ (partition_loop pred n w).2, pred x = false) := by
    intro pred n
    induction n with
    | zero =>
      intro w hw
      have : w = [] := List.length_eq_zero.mp (Nat.le_zero.mp hw)
      subst this
      simp [partition_loop]
    | succ n ih =>
      intro w hw
      cases w with
      | nil => simp [partition_loop]
      | cons x w =>
        have hlen : w.length ≤ n := by simpa using hw
        by_cases hx : pred x = true
        · obtain ⟨h1, h2, h3⟩ := ih w hlen
          simp only [partition_loop, hx, if_true]
          refine ⟨?_, ?_, h3⟩
          · simpa using h1
          · intro z hz
            rcases List.mem_cons.mp hz with rfl | hz
            · exact hx
            · exact h2 z hz
        · have hsplit : w = (w.reverse.dropWhile (fun t => !pred t)).reverse ++
              (w.reverse.takeWhile (fun t => !pred t)).reverse := by
            rw [← List.reverse_append, List.takeWhile_append_dropWhile, List.reverse_reverse]
          have htl :
              ∀ z ∈ (w.reverse.takeWhile (fun t => !pred t)).reverse, pred z = false := by
            intro z hz
            have := List.mem_takeWhile_imp (List.mem_reverse.mp hz)
            simpa using this
          simp only [partition_loop, hx]
          cases hd : w.reverse.dropWhile (fun t => !pred t) with
          | nil =>
            simp only [Bool.false_eq_true, if_false]
            refine ⟨by simp, by simp, ?_⟩
            intro z hz
            rcases List.mem_cons.mp hz with rfl | hz
            · simpa using hx
            · rw [hsplit, hd] at hz
              exact htl z (by simpa using hz)
          | cons y mid_rev =>
            simp only [Bool.false_eq_true, if_false]
            have hy : pred y = true := by
              have := List.head_dropWhile_not (fun t => !pred t) w.reverse
              simp [hd] at this
              exact this
            have hmid : mid_rev.reverse.length ≤ n := by
              have : w.length = (mid_rev.length + 1) +
                  (w.reverse.takeWhile (fun t => !pred t)).length := by
                conv_lhs => rw [hsplit, hd]
                simp only [List.reverse_cons, List.length_append, List.length_reverse,
                  List.length_singleton]
              simp only [List.length_reverse]
              omega
            obtain ⟨h1, h2, h3⟩ := ih mid_rev.reverse hmid
            refine ⟨?_, ?_, ?_⟩
            · have hw2 : List.Perm (mid_rev.reverse ++ y ::
                  (w.reverse.takeWhile (fun t => !pred t)).reverse) w := by
                conv_rhs => rw [hsplit, hd]
                simp
              have h4 : List.Perm (y :: (partition_loop pred n mid_rev.reverse).1 ++
                  ((partition_loop pred n mid_rev.reverse).2 ++
                    x :: (w.reverse.takeWhile (fun t => !pred t)).reverse))
                  (x :: (((partition_loop pred n mid_rev.reverse).1 ++
                    (partition_loop pred n mid_rev.reverse).2) ++ y ::
                    (w.reverse.takeWhile (fun t => !pred t)).reverse)) := by
                rw [List.cons_append, ← List.append_assoc]
                exact ((List.perm_middle (a := x)).cons y).trans
                  ((List.Perm.swap x y _).trans ((List.perm_middle (a := y)).symm.cons x))
              refine h4.trans (List.Perm.cons x ?_)
              exact (List.Perm.append_right _ h1).trans hw2
            · intro z hz
              rcases List.mem_cons.mp hz with rfl | hz
              · exact hy
              · exact h2 z hz
            · intro z hz
              rcases List.mem_append.mp hz with hz | hz
              · exact h3 z hz
              · rcases List.mem_cons.mp hz with rfl | hz
                · simpa using hx
                · exact htl z hz
  { run := bidirectional_partition
    perm := fun pred l => (contract pred l.length l (Nat.le_refl _)).1
    fst_sat := fun pred l => (contract pred l.length l (Nat.le_refl _)).2.1
    snd_unsat := fun pred l => (contract pred l.length l (Nat.le_refl _)).2.2 }

/-- `std::is_sorted(first, last)`: no element is less than the one before it. -/
def is_sorted {α : Type} [LinearOrder α] : List α → Bool
  | [] => true
  | [_] => true
  | a :: b :: l => !decide (b < a) && is_sorted (b :: l)

/-- One partition step as the sort performs it (lines 18 to 25, and 42 to 50): the first
element, spliced out as `pivot`; the rest `input`, as it is before `std::partition`; the part
before the divide point, spliced out as `lower_part`; and the `remainder`, which stays in
`input`. -/
structure partition_step (α : Type) where
  pivot : α
  input : List α
  lower_part : List α
  remainder : List α

/-- `quick_sort(std::list<T> input)`, together with the partition steps it performs over its
whole recursion (the step of this level, then those of the lower part, then those of the
remainder).  The first element is spliced out as the pivot, the rest is partitioned in place
by `t < pivot`, the part before the divide point is spliced into `lower_part`, both parts
are sorted recursively and spliced around the pivot. -/
def quick_sort_run {α : Type} [LinearOrder α] (P : StdPartition α) :
    List α → List α × List (partition_step α)
  | [] => ([], [])
  | pivot :: input =>
    let lower_part := (P.run (fun t => decide (t < pivot)) input).1
    let higher_part := (P.run (fun t => decide (t < pivot)) input).2
    let new_lower := quick_sort_run P lower_part
    let new_higher := quick_sort_run P higher_part
    (new_lower.1 ++ pivot :: new_higher.1,
     { pivot := pivot, input := input, lower_part := lower_part, remainder := higher_part } ::
       new_lower.2 ++ new_higher.2)
termination_by input => input.length
decreasing_by
  · simp_wf
    exact Nat.lt_succ_of_le (Nat.le_trans (Nat.le_add_right _ _)
      (Nat.le_of_eq ((List.length_append _ _).symm.trans (P.perm _ _).length_eq)))
  · simp_wf
    exact Nat.lt_succ_of_le (Nat.le_trans (Nat.le_add_left _ _)
      (Nat.le_of_eq ((List.length_append _ _).symm.trans (P.perm _ _).length_eq)))

/-- `quick_sort(std::list<T> input)`: the list it returns. -/
def quick_sort {α : Type} [LinearOrder α] (P : StdPartition α) (input : List α) : List α :=
  (quick_sort_run P input).1

/-- The launch policy handed to `std::async`. -/
inductive launch where
  | async
  | deferred
deriving DecidableEq, Repr

/-- A `std::future<R>` obtained from `std::async(policy, f, arg)`: the policy it was
launched with and the value of the dispatched call `f(arg)`, which is what `get()`
returns (on another thread for `async`, on the calling thread at `get()` for `deferred`). -/
structure future (ρ : Type) where
  policy : launch
  get : ρ

/-- `quick_sort_parallel(std::list<T> input)` with the literal `10000` of the source as
`cutoff`, together with the list of the sub-tasks it dispatches with `std::async` over its
whole recursion (for each, the launch policy and the size of the `lower_part` handed over)
and the partition steps it performs over its whole recursion, those of the `quick_sort` it
calls included (in both lists: this level, then the lower part, then the remainder). -/
def quick_sort_parallel_trace {α : Type} [LinearOrder α] (P : StdPartition α) (cutoff : Nat) :
    List α → List α × List (launch × Nat) × List (partition_step α)
  | [] => (quick_sort P [], [], (quick_sort_run P []).2)
  | pivot :: input =>
    if (pivot :: input).length < cutoff then
      (quick_sort P (pivot :: input), [], (quick_sort_run P (pivot :: input)).2)
    else
      let lower_part := (P.run (fun t => decide (t < pivot)) input).1
      let higher_part := (P.run (fun t => decide (t < pivot)) input).2
      let policy := if lower_part.length > cutoff then launch.async else launch.deferred
      let new_lower_future :
          future (List α × List (launch × Nat) × List (partition_step α)) :=
        { policy := policy, get := quick_sort_parallel_trace P cutoff lower_part }
      let new_higher := quick_sort_parallel_trace P cutoff higher_part
      (new_lower_future.get.1 ++ pivot :: new_higher.1,
       (new_lower_future.policy, lower_part.length) ::
         new_lower_future.get.2.1 ++ new_higher.2.1,
       { pivot := pivot, input := input, lower_part := lower_part, remainder := higher_part } ::
         new_lower_future.get.2.2 ++ new_higher.2.2)
termination_by input => input.length
decreasing_by
  · simp_wf
    exact Nat.lt_succ_of_le (Nat.le_trans (Nat.le_add_right _ _)
      (Nat.le_of_eq ((List.length_append _ _).symm.trans (P.perm _ _).length_eq)))
  · simp_wf
    exact Nat.lt_succ_of_le (Nat.le_trans (Nat.le_add_left _ _)
      (Nat.le_of_eq ((List.length_append _ _).symm.trans (P.perm _ _).length_eq)))

/-- `quick_sort_parallel(std::list<T> input)` with the literal `10000` of the source as
`cutoff`, together with the list of the sub-tasks it dispatches with `std::async` over its
whole recursion: for each, the launch policy and the size of the `lower_part` handed over
(the dispatch of this level, then those of the lower part, then those of the remainder). -/
def quick_sort_parallel_run {α : Type} [LinearOrder α] (P : StdPartition α) (cutoff : Nat)
    (input : List α) : List α × List (launch × Nat) :=
  ((quick_sort_parallel_trace P cutoff input).1, (quick_sort_parallel_trace P cutoff input).2.1)

/-- `quick_sort_parallel(std::list<T> input)`: the list it returns. -/
def quick_sort_parallel {α : Type} [LinearOrder α] (P : StdPartition α) (input : List α) :
    List α :=
  (quick_sort_parallel_run P 10000 input).1

/-- The stable rearrangement, both groups in their original order (what
`std::stable_partition` gives): the pair the partition step would yield if it were
stable. -/
def stable_partition {α : Type} (pred : α → Bool) (l : List α) : List α × List α :=
  (l.filter pred, l.filter (fun t => !pred t))

/-- `quick_sort` with the nesting of its calls counted: `none` when the calls would nest
deeper than `depth`, else the list returned. -/
def quick_sort_depth {α : Type} [LinearOrder α] (P : StdPartition α) :
    Nat → List α → Option (List α)
  | 0, _ => none
  | _ + 1, [] => some []
  | depth + 1, pivot :: input =>
    match quick_sort_depth P depth (P.run (fun t => decide (t < pivot)) input).1,
      quick_sort_depth P depth (P.run (fun t => decide (t < pivot)) input).2 with
    | some new_lower, some new_higher => some (new_lower ++ pivot :: new_higher)
    | _, _ => none

/-- `quick_sort_parallel` with the nesting of its calls counted, the calls of `quick_sort`
included: `none` when the calls would nest deeper than `depth`, else the list returned. -/
def quick_sort_parallel_depth {α : Type} [LinearOrder α] (P : StdPartition α) (cutoff : Nat) :
    Nat → List α → Option (List α)
  | 0, _ => none
  | depth + 1, [] => quick_sort_depth P depth []
  | depth + 1, pivot :: input =>
    if (pivot :: input).length < cutoff then
      quick_sort_depth P depth (pivot :: input)
    else
      match quick_sort_parallel_depth P cutoff depth
          (P.run (fun t => decide (t < pivot)) input).1,
        quick_sort_parallel_depth P cutoff depth
          (P.run (fun t => decide (t < pivot)) input).2 with
      | some new_lower, some new_higher => some (new_lower ++ pivot :: new_higher)
      | _, _ => none

end QuickSort

/-! ## Definitions: `Chapter-4/ThreadSafeQueue.cpp` -/

namespace ThreadSafeQueue

/-- The state of a `ThreadsafeQueue<T>`: its `std::queue<T> data_queue`, front first.  The
mutex `mut` makes every member function one atomic step on this state; the condition
variable `data_cond` appears through the wait predicates. -/
structure ThreadsafeQueue (T : Type) where
  data_queue : List T
deriving DecidableEq, Repr

/-- What a call of a member function does in a given state: it returns, or it stays
blocked in `data_cond.wait` (its predicate is false in this state), or it runs into
undefined behaviour (`front()` and `pop()` of an empty `std::queue`). -/
inductive Outcome (ρ : Type) where
  | returns (r : ρ)
  | blocks
  | undefined
deriving DecidableEq, Repr

/-- `ThreadsafeQueue()`: the empty queue. -/
def ThreadsafeQueue.init (T : Type) : ThreadsafeQueue T :=
  { data_queue := [] }

/-- `push(T new_value)`: `data_queue.push(new_value)`, at the back. -/
def ThreadsafeQueue.push {T : Type} (q : ThreadsafeQueue T) (new_value : T) :
    ThreadsafeQueue T :=
  { data_queue := q.data_queue ++ [new_value] }

/-- `empty() const`: the value of `data_queue.empty()`, and the queue after the call. -/
def ThreadsafeQueue.empty {T : Type} (q : ThreadsafeQueue T) : Bool × ThreadsafeQueue T :=
  (q.data_queue.isEmpty, q)

/-- `bool try_pop(T &value)`: the returned flag, the caller's `value` after the call and
the queue after the call. -/
def ThreadsafeQueue.try_pop_ref {T : Type} (q : ThreadsafeQueue T) (value : T) :
    Bool × T × ThreadsafeQueue T :=
  match q.data_queue with
  | [] => (false, value, q)
  | front :: rest => (true, front, { data_queue := rest })

/-- `std::shared_ptr<T> try_pop()`: the returned pointer (`none` is the null pointer
`std::shared_ptr<T>()`, `some v` points to a copy of `v`) and the queue after the call. -/
def ThreadsafeQueue.try_pop_ptr {T : Type} (q : ThreadsafeQueue T) :
    Option T × ThreadsafeQueue T :=
  match q.data_queue with
  | [] => (none, q)
  | front :: rest => (some front, { data_queue := rest })

/-- Integral promotion of a `bool` to `int`. -/
def bool_to_int (b : Bool) : Int :=
  if b then 1 else 0

/-- Conversion of an `int` to `bool`: non-zero is `true`. -/
def int_to_bool (i : Int) : Bool :=
  decide (i ≠ 0)

/-- The wait predicate of `wait_and_pop(T &value)`,
`[this]{return ~this->data_queue.empty();}`: the `bool` is promoted to `int`, `~` is the
bitwise complement, and `wait` tests the result as a `bool`. -/
def ThreadsafeQueue.wait_pred_ref {T : Type} (q : ThreadsafeQueue T) : Bool :=
  int_to_bool (~~~ (bool_to_int q.data_queue.isEmpty))

/-- The wait predicate of `std::shared_ptr<T> wait_and_pop()`,
`[this]{return !this->data_queue.empty();}`. -/
def ThreadsafeQueue.wait_pred_ptr {T : Type} (q : ThreadsafeQueue T) : Bool :=
  !q.data_queue.isEmpty

/-- `void wait_and_pop(T &value)`: `data_cond.wait(lk, pred)` lets the call go on only in
a state where `pred` is true; then `value = data_queue.front(); data_queue.pop();`.  The
result is the caller's `value` and the queue after the call. -/
def ThreadsafeQueue.wait_and_pop_ref {T : Type} (q : ThreadsafeQueue T) (_value : T) :
    Outcome (T × ThreadsafeQueue T) :=
  if q.wait_pred_ref then
    match q.data_queue with
    | [] => Outcome.undefined
    | front :: rest => Outcome.returns (front, { data_queue := rest })
  else
    Outcome.blocks

/-- `std::shared_ptr<T> wait_and_pop()`: the same with the predicate `!empty()`; the result
is the object the returned pointer points to and the queue after the call. -/
def ThreadsafeQueue.wait_and_pop_ptr {T : Type} (q : ThreadsafeQueue T) :
    Outcome (T × ThreadsafeQueue T) :=
  if q.wait_pred_ptr then
    match q.data_queue with
    | [] => Outcome.undefined
    | front :: rest => Outcome.returns (front, { data_queue := rest })
  else
    Outcome.blocks

/-- One call in a linearised history. -/
inductive Op (T : Type) where
  | push (new_value : T)
  | try_pop_ref
  | try_pop_ptr
  | wait_and_pop_ref
  | wait_and_pop_ptr
deriving DecidableEq, Repr

/-- One call applied to a queue: the item it hands to its caller, if any, and the queue
after it.  A `try_pop(T&)` or `wait_and_pop(T&)` writes to a variable of its caller, whose
value before the call is `dflt`. -/
def Op.apply {T : Type} (dflt : T) (q : ThreadsafeQueue T) :
    Op T → Outcome (Option T × ThreadsafeQueue T)
  | Op.push new_value => Outcome.returns (none, q.push new_value)
  | Op.try_pop_ref =>
    match q.try_pop_ref dflt with
    | (true, value, q') => Outcome.returns (some value, q')
    | (false, _, q') => Outcome.returns (none, q')
  | Op.try_pop_ptr => Outcome.returns (q.try_pop_ptr.1, q.try_pop_ptr.2)
  | Op.wait_and_pop_ref =>
    match q.wait_and_pop_ref dflt with
    | Outcome.returns (value, q') => Outcome.returns (some value, q')
    | Outcome.blocks => Outcome.blocks
    | Outcome.undefined => Outcome.undefined
  | Op.wait_and_pop_ptr =>
    match q.wait_and_pop_ptr with
    | Outcome.returns (value, q') => Outcome.returns (some value, q')
    | Outcome.blocks => Outcome.blocks
    | Outcome.undefined => Outcome.undefined

/-- A linearised history applied to a queue, call after call: the items handed out by the
pops, in order, and the final queue.  A history with a call that cannot return in the state
it meets has no such result. -/
def run_history {T : Type} (dflt : T) :
    List (Op T) → ThreadsafeQueue T → Outcome (List T × ThreadsafeQueue T)
  | [], q => Outcome.returns ([], q)
  | op :: ops, q =>
    match op.apply dflt q with
    | Outcome.returns (item, q') =>
      match run_history dflt ops q' with
      | Outcome.returns (items, q2) => Outcome.returns (item.toList ++ items, q2)
      | Outcome.blocks => Outcome.blocks
      | Outcome.undefined => Outcome.undefined
    | Outcome.blocks => Outcome.blocks
    | Outcome.undefined => Outcome.undefined

/-- The items pushed by a history, in push order. -/
def pushed {T : Type} : List (Op T) → List T
  | [] => []
  | Op.push v :: ops => v :: pushed ops
  | _ :: ops => pushed ops

end ThreadSafeQueue

/-! ## Definitions: `Chapter-4/FutureBasedTaskQueue.cpp` -/

namespace FutureBasedTaskQueue

/-- The shared state behind a `std::future<void>`: not yet set, or set to the outcome of
the task, which is a normal return (`Except.ok ()`) or a stored exception. -/
inductive shared_state (ε : Type) where
  | pending
  | ready (outcome : Except ε Unit)

/-- A `std::function<void()>`: a callable run for its effect on the rest of the program
(`ω`); it returns nothing, or it throws (`ε`). -/
abbrev function_void (ω ε : Type) := ω → Except ε Unit × ω

/-- A `std::packaged_task<void()>`: the stored callable and its shared state, named by its
index among the shared states created so far. -/
structure packaged_task (ω ε : Type) where
  f : function_void ω ε
  state : Nat

/-- A `TaskQueue` (`tasks`, `stop_flag`) with what its tasks act on: the shared states of
the futures handed out by `post_task`, in order of creation, and the rest of the
program `world`. -/
structure TaskQueue (ω ε : Type) where
  tasks : List (packaged_task ω ε)
  stop_flag : Bool
  shared : List (shared_state ε)
  world : ω

/-- A fresh `TaskQueue`: no task, `stop_flag = false`. -/
def TaskQueue.init {ω : Type} (ε : Type) (w : ω) : TaskQueue ω ε :=
  { tasks := [], stop_flag := false, shared := [], world := w }

/-- `post_task(f)`: a `packaged_task` is made from `f`, its future is taken, the task is
pushed at the back of `tasks`; the future (the index of its shared state) is returned. -/
def TaskQueue.post_task {ω ε : Type} (tq : TaskQueue ω ε) (f : function_void ω ε) :
    Nat × TaskQueue ω ε :=
  let task : packaged_task ω ε := { f := f, state := tq.shared.length }
  let res := task.state
  (res, { tq with shared := tq.shared ++ [shared_state.pending], tasks := tq.tasks ++ [task] })

/-- `task()`, the call operator of `std::packaged_task`: the stored callable is run, and
its outcome, the normal return or the exception it threw, is stored in the shared state,
which becomes ready. -/
def packaged_task.invoke {ω ε : Type} (task : packaged_task ω ε) (tq : TaskQueue ω ε) :
    TaskQueue ω ε :=
  { tq with
    world := (task.f tq.world).2
    shared := tq.shared.set task.state (shared_state.ready (task.f tq.world).1) }

/-- One round of the loop of `worker_thread()`.  `none`: `stop_flag` is set, the loop is
left.  Otherwise the round ends in the state given: unchanged when `tasks` is empty (sleep,
`continue`), else the front task is moved out of `tasks` and run. -/
def TaskQueue.worker_iteration {ω ε : Type} (tq : TaskQueue ω ε) : Option (TaskQueue ω ε) :=
  if tq.stop_flag then
    none
  else
    match tq.tasks with
    | [] => some tq
    | task :: rest => some (task.invoke { tq with tasks := rest })

/-- `worker_thread()` observed for at most `n` rounds of its loop. -/
def TaskQueue.worker_thread {ω ε : Type} : Nat → TaskQueue ω ε → TaskQueue ω ε
  | 0, tq => tq
  | n + 1, tq =>
    match tq.worker_iteration with
    | none => tq
    | some tq' => TaskQueue.worker_thread n tq'

/-- `stop()`: `stop_flag = true`. -/
def TaskQueue.stop {ω ε : Type} (tq : TaskQueue ω ε) : TaskQueue ω ε :=
  { tq with stop_flag := true }

/-- `get()` on the future `res`: `none` while its shared state is pending (the caller
stays blocked), else the stored outcome: a normal return of `void`, or the stored exception,
which `get()` rethrows. -/
def TaskQueue.future_get {ω ε : Type} (tq : TaskQueue ω ε) (res : Nat) :
    Option (Except ε Unit) :=
  match tq.shared[res]? with
  | some (shared_state.ready outcome) => some outcome
  | _ => none

/-- One step of a history of a `TaskQueue` with one worker. -/
inductive Event (ω ε : Type) where
  | post_task (f : function_void ω ε)
  | worker_iteration
  | stop

/-- One step applied to a `TaskQueue`; a round of a worker that has left its loop does
nothing. -/
def Event.apply {ω ε : Type} (tq : TaskQueue ω ε) : Event ω ε → TaskQueue ω ε
  | Event.post_task f => (tq.post_task f).2
  | Event.worker_iteration => (tq.worker_iteration).getD tq
  | Event.stop => tq.stop

/-- A history applied to a `TaskQueue`, step after step. -/
def run_events {ω ε : Type} : List (Event ω ε) → TaskQueue ω ε → TaskQueue ω ε
  | [], tq => tq
  | ev :: evs, tq => run_events evs (ev.apply tq)

/-- The callables posted by a history, in posting order. -/
def posted {ω ε : Type} : List (Event ω ε) → List (function_void ω ε)
  | [] => []
  | Event.post_task f :: evs => f :: posted evs
  | _ :: evs => posted evs

/-- The callables `fs` run one after the other from the world `w`, each once: their
outcomes, in order, and the world after the last. -/
def run_in_order {ω ε : Type} : List (function_void ω ε) → ω → List (Except ε Unit) × ω
  | [], w => ([], w)
  | f :: fs, w => ((f w).1 :: (run_in_order fs (f w).2).1, (run_in_order fs (f w).2).2)

/-- The tasks that `post_task` makes of the callables `fs`, one after the other, when the
first of them gets the shared state `k`. -/
def tasks_from {ω ε : Type} : Nat → List (function_void ω ε) → List (packaged_task ω ε)
  | _, [] => []
  | k, f :: fs => { f := f, state := k } :: tasks_from (k + 1) fs

/-- A callable that prints `line` and returns nothing, as the tasks posted by `main`. -/
def printing (line : String) : function_void (List String) String :=
  fun w => (Except.ok (), w ++ [line])

/-- A callable that prints `msg` and then throws it. -/
def throwing (msg : String) : function_void (List String) String :=
  fun w => (Except.error msg, w ++ [msg])

/-- A callable that appends `label` to the world, a list of labels in order of execution,
and returns nothing. -/
def logging {ε : Type} (label : Nat) : function_void (List Nat) ε :=
  fun w => (Except.ok (), w ++ [label])

/-- A `std::future<void>` in the hands of its reader: the shared state it refers to, and
whether it still refers to it (`valid()`): `get()` releases the shared state. -/
structure future_void where
  state : Nat
  valid : Bool
deriving DecidableEq, Repr

/-- What a call of `get()` on a `std::future<void>` comes to: it returns the stored
outcome (a normal return of `void`, or the stored exception, rethrown); or the caller stays
blocked, the shared state not being ready; or the future is not valid, having been read
before (`std::future_error`, `no_state`). -/
inductive get_result (ε : Type) where
  | ready (outcome : Except ε Unit)
  | blocks
  | no_state

/-- `get()` on the future `fut`: the result of the call and the future after it.  A `get()`
that returns leaves the future invalid. -/
def future_void.get {ω ε : Type} (fut : future_void) (tq : TaskQueue ω ε) :
    get_result ε × future_void :=
  if fut.valid then
    match tq.future_get fut.state with
    | some outcome => (get_result.ready outcome, { fut with valid := false })
    | none => (get_result.blocks, fut)
  else
    (get_result.no_state, fut)

/-- A `TaskQueue` served by any number of threads running `worker_thread()`.  `hands`
holds, for each of these threads, its local `task`: `some task` from `tasks.pop_front()`,
under the mutex, to the end of `task()`, outside it; `none` otherwise. -/
structure Pool (ω ε : Type) where
  queue : TaskQueue ω ε
  hands : List (Option (packaged_task ω ε))

/-- A fresh `TaskQueue` with `workers` worker threads at the head of their loops. -/
def Pool.init {ω : Type} (ε : Type) (workers : Nat) (w : ω) : Pool ω ε :=
  { queue := TaskQueue.init ε w, hands := List.replicate workers none }

/-- The worker `id`, at the head of its loop, goes as far as the end of the locked block:
it leaves the loop when `stop_flag` is set; else, under the mutex, it finds `tasks` empty
(sleep, `continue`) or moves the front task out of `tasks` into its local `task`. -/
def Pool.worker_pop {ω ε : Type} (p : Pool ω ε) (id : Nat) : Pool ω ε :=
  match p.hands[id]? with
  | some none =>
    if p.queue.stop_flag then
      p
    else
      match p.queue.tasks with
      | [] => p
      | task :: rest =>
        { queue := { p.queue with tasks := rest }, hands := p.hands.set id (some task) }
  | _ => p

/-- The worker `id` executes `task()` on the task it has moved out of the queue, and is
back at the head of its loop. -/
def Pool.worker_run {ω ε : Type} (p : Pool ω ε) (id : Nat) : Pool ω ε :=
  match p.hands[id]? with
  | some (some task) => { queue := task.invoke p.queue, hands := p.hands.set id none }
  | _ => p

/-- One step of a history of a `TaskQueue` with several workers. -/
inductive PoolEvent (ω ε : Type) where
  | post_task (f : function_void ω ε)
  | worker_pop (id : Nat)
  | worker_run (id : Nat)
  | stop

/-- One step applied to a pool. -/
def PoolEvent.apply {ω ε : Type} (p : Pool ω ε) : PoolEvent ω ε → Pool ω ε
  | PoolEvent.post_task f => { p with queue := (p.queue.post_task f).2 }
  | PoolEvent.worker_pop id => p.worker_pop id
  | PoolEvent.worker_run id => p.worker_run id
  | PoolEvent.stop => { p with queue := p.queue.stop }

end FutureBasedTaskQueue

/-! ## Definitions: `Chapter-4/shared_future.cpp` -/

namespace SharedFuture

/-- The state of `shared_future_example` with `readers` threads running `worker`.
`shared` is the shared state of the `std::promise<int>`, which every copy of the
`std::shared_future<int>` refers to: `none` until `set_value`, then the value stored.
`values` holds, for each worker thread, the `value` it has read with `fut.get()`: `none`
as long as the thread has not returned from `get()`. -/
structure State where
  shared : Option Int
  values : List (Option Int)
deriving DecidableEq, Repr

/-- The threads are launched, each with its own copy of `shared_fut`; the promise is not
yet satisfied. -/
def State.init (readers : Nat) : State :=
  { shared := none, values := List.replicate readers none }

/-- `promise.set_value(v)` by the main thread, which calls it once: the shared state
becomes ready with `v`.  (A second call would throw `promise_already_satisfied` and leave
the stored value.) -/
def State.set_value (s : State) (v : Int) : State :=
  match s.shared with
  | none => { s with shared := some v }
  | some _ => s

/-- `fut.get()` on a copy of the shared future: `none` while the shared state is not ready
(the caller stays blocked), else the value stored, which stays in the shared state. -/
def State.get (s : State) : Option Int :=
  s.shared

/-- The worker thread `id` is given the processor: inside `int value = fut.get();` it
stays blocked as long as the shared state is not ready, and reads the value once it is.  A
worker that has read its value only prints and sleeps from there on. -/
def State.worker (s : State) (id : Nat) : State :=
  match s.values[id]? with
  | some none =>
    match s.get with
    | none => s
    | some v => { s with values := s.values.set id (some v) }
  | _ => s

/-- One step of a schedule: the main thread executes `promise.set_value(42)`, or the
worker thread `id` is given the processor. -/
inductive Step where
  | set_value
  | worker (id : Nat)
deriving DecidableEq, Repr

/-- One step of a schedule applied to a state; after its one `set_value(42)` the main
thread only joins. -/
def Step.apply (s : State) : Step → State
  | Step.set_value => s.set_value 42
  | Step.worker id => s.worker id

/-- An interleaving of the threads, step after step. -/
def run_schedule : List Step → State → State
  | [], s => s
  | step :: steps, s => run_schedule steps (step.apply s)

/-- `shared_future_example` under the interleaving `schedule`: three worker threads. -/
def shared_future_example (schedule : List Step) : State :=
  run_schedule schedule (State.init 3)

end SharedFuture


/-! ## Theorems: `quick_sort` and `quick_sort_parallel` -/

namespace QuickSort

theorem quick_sort_nil {α : Type} [LinearOrder α] (P : StdPartition α) :
    quick_sort P [] = [] := by
  rw [quick_sort, quick_sort_run]

theorem quick_sort_cons {α : Type} [LinearOrder α] (P : StdPartition α) (pivot : α)
    (input : List α) :
    quick_sort P (pivot :: input) =
      quick_sort P (P.run (fun t => decide (t < pivot)) input).1 ++
        pivot :: quick_sort P (P.run (fun t => decide (t < pivot)) input).2 := by
  rw [quick_sort, quick_sort_run]
  rfl

theorem StdPartition.length_fst_le {α : Type} (P : StdPartition α) (pred : α → Bool)
    (l : List α) : (P.run pred l).1.length ≤ l.length := by
  have h := (P.perm pred l).length_eq
  rw [List.length_append] at h
  omega

theorem StdPartition.length_snd_le {α : Type} (P : StdPartition α) (pred : α → Bool)
    (l : List α) : (P.run pred l).2.length ≤ l.length := by
  have h := (P.perm pred l).length_eq
  rw [List.length_append] at h
  omega

theorem perm_quick_sort_of_length_le {α : Type} [LinearOrder α] (P : StdPartition α)
    (n : Nat) : ∀ l : List α, l.length ≤ n → List.Perm (quick_sort P l) l := by
  induction n with
  | zero =>
    intro l hl
    have : l = [] := List.length_eq_zero.mp (Nat.le_zero.mp hl)
    subst this
    rw [quick_sort_nil]
  | succ n ih =>
    intro l hl
    cases l with
    | nil => rw [quick_sort_nil]
    | cons pivot input =>
      have hlen : input.length ≤ n := by simpa using hl
      have h1 := ih _ ((P.length_fst_le (fun t => decide (t < pivot)) input).trans hlen)
      have h2 := ih _ ((P.length_snd_le (fun t => decide (t < pivot)) input).trans hlen)
      rw [quick_sort_cons]
      refine List.perm_middle.trans (List.Perm.cons pivot ?_)
      exact (List.Perm.append h1 h2).trans (P.perm _ input)

theorem perm_quick_sort {α : Type} [LinearOrder α] (P : StdPartition α) (l : List α) :
    List.Perm (quick_sort P l) l :=
  perm_quick_sort_of_length_le P l.length l (Nat.le_refl _)

theorem sorted_quick_sort_of_length_le {α : Type} [LinearOrder α] (P : StdPartition α)
    (n : Nat) :
    ∀ l : List α, l.length ≤ n → List.Sorted (fun a b => a ≤ b) (quick_sort P l) := by
  induction n with
  | zero =>
    intro l hl
    have : l = [] := List.length_eq_zero.mp (Nat.le_zero.mp hl)
    subst this
    rw [quick_sort_nil]
    exact List.sorted_nil
  | succ n ih =>
    intro l hl
    cases l with
    | nil =>
      rw [quick_sort_nil]
      exact List.sorted_nil
    | cons pivot input =>
      have hlen : input.length ≤ n := by simpa using hl
      have h1 := ih _ ((P.length_fst_le (fun t => decide (t < pivot)) input).trans hlen)
      have h2 := ih _ ((P.length_snd_le (fun t => decide (t < pivot)) input).trans hlen)
      have hlow : ∀ a ∈ quick_sort P (P.run (fun t => decide (t < pivot)) input).1,
          a < pivot := by
        intro a ha
        have := P.fst_sat _ input a ((perm_quick_sort P _).mem_iff.mp ha)
        simpa using this
      have hhigh : ∀ b ∈ quick_sort P (P.run (fun t => decide (t < pivot)) input).2,
          pivot ≤ b := by
        intro b hb
        have := P.snd_unsat _ input b ((perm_quick_sort P _).mem_iff.mp hb)
        simpa using this
      rw [quick_sort_cons]
      refine List.pairwise_append.mpr ⟨h1, List.pairwise_cons.mpr ⟨hhigh, h2⟩, ?_⟩
      intro a ha b hb
      rcases List.mem_cons.mp hb with rfl | hb
      · exact le_of_lt (hlow a ha)
      · exact le_trans (le_of_lt (hlow a ha)) (hhigh b hb)

theorem sorted_quick_sort {α : Type} [LinearOrder α] (P : StdPartition α) (l : List α) :
    List.Sorted (fun a b => a ≤ b) (quick_sort P l) :=
  sorted_quick_sort_of_length_le P l.length l (Nat.le_refl _)

theorem is_sorted_iff_chain {α : Type} [LinearOrder α] (l : List α) :
    is_sorted l = true ↔ List.Chain' (fun a b => a ≤ b) l := by
  induction l with
  | nil => simp [is_sorted]
  | cons a l ih =>
    cases l with
    | nil => simp [is_sorted]
    | cons b l =>
      rw [List.chain'_cons, ← ih]
      simp [is_sorted]

theorem quick_sort_eq_of_sorted_perm {α : Type} [LinearOrder α] (P : StdPartition α)
    (l s : List α) (hs : List.Sorted (fun a b => a ≤ b) s) (hp : List.Perm s l) :
    quick_sort P l = s :=
  List.eq_of_perm_of_sorted ((perm_quick_sort P l).trans hp.symm) (sorted_quick_sort P l) hs

theorem quick_sort_parallel_run_nil {α : Type} [LinearOrder α] (P : StdPartition α)
    (cutoff : Nat) : quick_sort_parallel_run P cutoff ([] : List α) = (quick_sort P [], []) := by
  rw [quick_sort_parallel_run, quick_sort_parallel_trace]

theorem quick_sort_parallel_run_below {α : Type} [LinearOrder α] (P : StdPartition α)
    (cutoff : Nat) (input : List α) (h : input.length < cutoff) :
    quick_sort_parallel_run P cutoff input = (quick_sort P input, []) := by
  cases input with
  | nil => rw [quick_sort_parallel_run, quick_sort_parallel_trace]
  | cons pivot input => rw [quick_sort_parallel_run, quick_sort_parallel_trace, if_pos h]

theorem quick_sort_parallel_run_above {α : Type} [LinearOrder α] (P : StdPartition α)
    (cutoff : Nat) (pivot : α) (input : List α) (h : cutoff ≤ (pivot :: input).length) :
    quick_sort_parallel_run P cutoff (pivot :: input) =
      ((quick_sort_parallel_run P cutoff (P.run (fun t => decide (t < pivot)) input).1).1 ++
        pivot ::
          (quick_sort_parallel_run P cutoff (P.run (fun t => decide (t < pivot)) input).2).1,
       ((if (P.run (fun t => decide (t < pivot)) input).1.length > cutoff then launch.async
          else launch.deferred),
         (P.run (fun t => decide (t < pivot)) input).1.length) ::
        (quick_sort_parallel_run P cutoff (P.run (fun t => decide (t < pivot)) input).1).2 ++
        (quick_sort_parallel_run P cutoff (P.run (fun t => decide (t < pivot)) input).2).2) := by
  rw [quick_sort_parallel_run, quick_sort_parallel_trace, if_neg (Nat.not_lt.mpr h)]
  rfl

theorem quick_sort_parallel_run_fst_of_length_le {α : Type} [LinearOrder α]
    (P : StdPartition α) (cutoff n : Nat) :
    ∀ l : List α, l.length ≤ n →
      (quick_sort_parallel_run P cutoff l).1 = quick_sort P l := by
  induction n with
  | zero =>
    intro l hl
    have : l = [] := List.length_eq_zero.mp (Nat.le_zero.mp hl)
    subst this
    rw [quick_sort_parallel_run_nil]
  | succ n ih =>
    intro l hl
    cases l with
    | nil => rw [quick_sort_parallel_run_nil]
    | cons pivot input =>
      have hlen : input.length ≤ n := by simpa using hl
      have h1 := ih _ ((P.length_fst_le (fun t => decide (t < pivot)) input).trans hlen)
      have h2 := ih _ ((P.length_snd_le (fun t => decide (t < pivot)) input).trans hlen)
      by_cases hc : (pivot :: input).length < cutoff
      · rw [quick_sort_parallel_run_below P cutoff _ hc]
      · rw [quick_sort_parallel_run_above P cutoff pivot input (Nat.le_of_not_lt hc),
          quick_sort_cons]
        simp only [h1, h2]

theorem quick_sort_parallel_run_fst {α : Type} [LinearOrder α] (P : StdPartition α)
    (cutoff : Nat) (l : List α) : (quick_sort_parallel_run P cutoff l).1 = quick_sort P l :=
  quick_sort_parallel_run_fst_of_length_le P cutoff l.length l (Nat.le_refl _)

/-- C1: for every input list over a linearly ordered type, the list `quick_sort` returns is
totally ordered: each element is not greater than the one that follows it (and so than any
later one), and the output passes the `std::is_sorted` check of the benchmark. -/
theorem quick_sort_totally_ordered {α : Type} [LinearOrder α] (P : StdPartition α)
    (input : List α) :
    List.Chain' (fun a b => a ≤ b) (quick_sort P input) ∧
    List.Pairwise (fun a b => a ≤ b) (quick_sort P input) ∧
    is_sorted (quick_sort P input) = true :=
  ⟨(sorted_quick_sort P input).chain', sorted_quick_sort P input,
    (is_sorted_iff_chain _).mpr (sorted_quick_sort P input).chain'⟩

/-- C2: for every input list, the list `quick_sort` returns is a permutation of the input:
every element occurs in it exactly as many times as in the input, and it has the same
length. -/
theorem quick_sort_permutation {α : Type} [LinearOrder α] (P : StdPartition α)
    (input : List α) :
    List.Perm (quick_sort P input) input ∧
    (∀ x : α, (quick_sort P input).count x = input.count x) ∧
    (quick_sort P input).length = input.length :=
  ⟨perm_quick_sort P input, fun x => (perm_quick_sort P input).count_eq x,
    (perm_quick_sort P input).length_eq⟩

/-- C3: for every input list, of any length, `quick_sort_parallel` returns the list that
`quick_sort` returns (whatever the cutoff, `10000` in the source); the input `[5,3,8,1]`
yields `[1,3,5,8]` through `quick_sort`, through `quick_sort_parallel`, and through the
dispatching branch taken at every level (cutoff `0`), where four sub-tasks are dispatched. -/
theorem quick_sort_parallel_eq_quick_sort :
    (∀ (α : Type) [LinearOrder α] (P : StdPartition α) (input : List α),
      quick_sort_parallel P input = quick_sort P input) ∧
    (∀ (α : Type) [LinearOrder α] (P : StdPartition α) (cutoff : Nat) (input : List α),
      (quick_sort_parallel_run P cutoff input).1 = quick_sort P input) ∧
    (∀ P : StdPartition Int,
      quick_sort P [5, 3, 8, 1] = [1, 3, 5, 8] ∧
      quick_sort_parallel P [5, 3, 8, 1] = [1, 3, 5, 8] ∧
      (quick_sort_parallel_run P 0 [5, 3, 8, 1]).1 = [1, 3, 5, 8]) ∧
    quick_sort_parallel_run (libstdcxx Int) 0 [5, 3, 8, 1] =
      ([1, 3, 5, 8],
        [(launch.async, 2), (launch.async, 1), (launch.deferred, 0), (launch.deferred, 0)]) := by
  have key : ∀ P : StdPartition Int, quick_sort P [5, 3, 8, 1] = [1, 3, 5, 8] := fun P =>
    quick_sort_eq_of_sorted_perm P _ _ (by decide) (by decide)
  refine ⟨fun α _ P input => quick_sort_parallel_run_fst P 10000 input,
    fun α _ P cutoff input => quick_sort_parallel_run_fst P cutoff input,
    fun P => ⟨key P, ?_, ?_⟩, ?_⟩
  · exact (quick_sort_parallel_run_fst P 10000 _).trans (key P)
  · exact (quick_sort_parallel_run_fst P 0 _).trans (key P)
  · simp [quick_sort_parallel_run, quick_sort_parallel_trace, quick_sort, quick_sort_run,
      libstdcxx, bidirectional_partition,
      partition_loop]

/-- C10: `quick_sort` is idempotent, `quick_sort (quick_sort x) = quick_sort x` for every
input list `x` over a linearly ordered type, and so is `quick_sort_parallel`. -/
theorem quick_sort_idempotent {α : Type} [LinearOrder α] (P : StdPartition α) (x : List α) :
    quick_sort P (quick_sort P x) = quick_sort P x ∧
    quick_sort_parallel P (quick_sort_parallel P x) = quick_sort_parallel P x := by
  have h : quick_sort P (quick_sort P x) = quick_sort P x :=
    quick_sort_eq_of_sorted_perm P _ _ (sorted_quick_sort P x) (List.Perm.refl _)
  refine ⟨h, ?_⟩
  unfold quick_sort_parallel
  rw [quick_sort_parallel_run_fst, quick_sort_parallel_run_fst, h]

end QuickSort

/-! ## Theorems: `ThreadsafeQueue` -/

namespace ThreadSafeQueue

theorem wait_pred_ref_eq_true {T : Type} (q : ThreadsafeQueue T) : q.wait_pred_ref = true := by
  unfold ThreadsafeQueue.wait_pred_ref
  cases q.data_queue.isEmpty <;> decide

theorem wait_pred_ptr_iff {T : Type} (q : ThreadsafeQueue T) :
    q.wait_pred_ptr = true ↔ q.data_queue ≠ [] := by
  unfold ThreadsafeQueue.wait_pred_ptr
  cases q.data_queue <;> simp

theorem Op.apply_returns {T : Type} (dflt : T) (q q' : ThreadsafeQueue T) (op : Op T)
    (item : Option T) (h : op.apply dflt q = Outcome.returns (item, q')) :
    q.data_queue ++ pushed [op] = item.toList ++ q'.data_queue := by
  obtain ⟨dq⟩ := q
  cases op with
  | push v =>
    simp only [Op.apply, ThreadsafeQueue.push, Outcome.returns.injEq, Prod.mk.injEq] at h
    obtain ⟨rfl, rfl⟩ := h
    simp [pushed]
  | try_pop_ref =>
    cases dq with
    | nil =>
      simp only [Op.apply, ThreadsafeQueue.try_pop_ref, Outcome.returns.injEq,
        Prod.mk.injEq] at h
      obtain ⟨rfl, rfl⟩ := h
      simp [pushed]
    | cons a l =>
      simp only [Op.apply, ThreadsafeQueue.try_pop_ref, Outcome.returns.injEq,
        Prod.mk.injEq] at h
      obtain ⟨rfl, rfl⟩ := h
      simp [pushed]
  | try_pop_ptr =>
    cases dq with
    | nil =>
      simp only [Op.apply, ThreadsafeQueue.try_pop_ptr, Outcome.returns.injEq,
        Prod.mk.injEq] at h
      obtain ⟨rfl, rfl⟩ := h
      simp [pushed]
    | cons a l =>
      simp only [Op.apply, ThreadsafeQueue.try_pop_ptr, Outcome.returns.injEq,
        Prod.mk.injEq] at h
      obtain ⟨rfl, rfl⟩ := h
      simp [pushed]
  | wait_and_pop_ref =>
    cases dq with
    | nil =>
      simp [Op.apply, ThreadsafeQueue.wait_and_pop_ref, wait_pred_ref_eq_true] at h
    | cons a l =>
      simp only [Op.apply, ThreadsafeQueue.wait_and_pop_ref, wait_pred_ref_eq_true,
        if_true, Outcome.returns.injEq, Prod.mk.injEq] at h
      obtain ⟨rfl, rfl⟩ := h
      simp [pushed]
  | wait_and_pop_ptr =>
    cases dq with
    | nil =>
      simp [Op.apply, ThreadsafeQueue.wait_and_pop_ptr, ThreadsafeQueue.wait_pred_ptr] at h
    | cons a l =>
      simp only [Op.apply, ThreadsafeQueue.wait_and_pop_ptr, ThreadsafeQueue.wait_pred_ptr,
        List.isEmpty_cons, Bool.not_false, if_true, Outcome.returns.injEq,
        Prod.mk.injEq] at h
      obtain ⟨rfl, rfl⟩ := h
      simp [pushed]

theorem pushed_cons {T : Type} (op : Op T) (ops : List (Op T)) :
    pushed (op :: ops) = pushed [op] ++ pushed ops := by
  cases op <;> simp [pushed]

/-- In a history all of whose calls return, the items handed out by the pops followed by
the final contents are the initial contents followed by the items pushed: nothing is lost,
duplicated or reordered. -/
theorem run_history_fifo {T : Type} (dflt : T) (ops : List (Op T)) :
    ∀ (q q' : ThreadsafeQueue T) (items : List T),
      run_history dflt ops q = Outcome.returns (items, q') →
      q.data_queue ++ pushed ops = items ++ q'.data_queue := by
  induction ops with
  | nil =>
    intro q q' items h
    simp only [run_history, Outcome.returns.injEq, Prod.mk.injEq] at h
    obtain ⟨rfl, rfl⟩ := h
    simp [pushed]
  | cons op ops ih =>
    intro q q' items h
    rw [run_history] at h
    cases h1 : op.apply dflt q with
    | returns r =>
      obtain ⟨item, q1⟩ := r
      rw [h1] at h
      simp only at h
      cases h2 : run_history dflt ops q1 with
      | returns r2 =>
        obtain ⟨items2, q2⟩ := r2
        rw [h2] at h
        simp only [Outcome.returns.injEq, Prod.mk.injEq] at h
        obtain ⟨rfl, rfl⟩ := h
        have e1 := Op.apply_returns dflt q q1 op item h1
        have e2 := ih q1 q2 items2 h2
        rw [pushed_cons, ← List.append_assoc, e1, List.append_assoc, e2, List.append_assoc]
      | blocks => rw [h2] at h; simp at h
      | undefined => rw [h2] at h; simp at h
    | blocks => rw [h1] at h; simp at h
    | undefined => rw [h1] at h; simp at h

/-- C4: the history that consists of one `wait_and_pop(value)` on the initially empty queue
does not block: the call goes past its wait and reads `front()` of an empty `std::queue`,
so that it hands out an item that was never pushed (undefined behaviour); the same happens
to the second pop after one push.  The `shared_ptr` overload blocks there, and both
overloads hand out 1, 2, 3 in that order after the pushes of 1, 2, 3. -/
theorem wait_and_pop_ref_history_undefined :
    run_history (0 : Int) [Op.wait_and_pop_ref] (ThreadsafeQueue.init Int) = Outcome.undefined ∧
    run_history (0 : Int) [Op.push 1, Op.wait_and_pop_ref, Op.wait_and_pop_ref]
      (ThreadsafeQueue.init Int) = Outcome.undefined ∧
    run_history (0 : Int) [Op.wait_and_pop_ptr] (ThreadsafeQueue.init Int) = Outcome.blocks ∧
    run_history (0 : Int)
      [Op.push 1, Op.push 2, Op.push 3, Op.wait_and_pop_ref, Op.wait_and_pop_ref,
        Op.wait_and_pop_ref] (ThreadsafeQueue.init Int) =
      Outcome.returns ([1, 2, 3], ThreadsafeQueue.init Int) ∧
    run_history (0 : Int)
      [Op.push 1, Op.push 2, Op.push 3, Op.wait_and_pop_ptr, Op.wait_and_pop_ptr,
        Op.wait_and_pop_ptr] (ThreadsafeQueue.init Int) =
      Outcome.returns ([1, 2, 3], ThreadsafeQueue.init Int) := by
  refine ⟨?_, ?_, ?_, ?_, ?_⟩ <;> decide

/-- C5: the wait predicate of `wait_and_pop(T &value)`, `~data_queue.empty()`, is true in
every state, the empty queue included, where the call then reads the head of an empty
queue; the predicate of the `shared_ptr` overload, `!data_queue.empty()`, is true exactly
when the queue holds an item, and that overload blocks on the empty queue. -/
theorem wait_pred_ref_true_on_empty :
    (ThreadsafeQueue.init Int).wait_pred_ref = true ∧
    (ThreadsafeQueue.init Int).wait_and_pop_ref 0 = Outcome.undefined ∧
    (∀ (T : Type) (q : ThreadsafeQueue T), q.wait_pred_ref = true) ∧
    (∀ (T : Type) (q : ThreadsafeQueue T), q.wait_pred_ptr = true ↔ q.data_queue ≠ []) ∧
    (ThreadsafeQueue.init Int).wait_and_pop_ptr = Outcome.blocks :=
  ⟨by decide, by decide, fun _ q => wait_pred_ref_eq_true q, fun _ q => wait_pred_ptr_iff q,
    by decide⟩

/-- C6: `try_pop` gives its `no item` result (`false` for `try_pop(T&)`, the null pointer
for `try_pop()`) if and only if `empty()` returns `true`; exactly in that case the call
leaves the queue, and the variable of the caller, as they were; `empty()` leaves the queue
as it was. -/
theorem try_pop_no_item_iff_empty {T : Type} (q : ThreadsafeQueue T) (value : T) :
    ((q.try_pop_ref value).1 = false ↔ q.empty.1 = true) ∧
    (q.try_pop_ptr.1 = none ↔ q.empty.1 = true) ∧
    (q.empty.1 = true ↔ q.data_queue = []) ∧
    (q.empty.1 = true ↔ q.try_pop_ref value = (false, value, q)) ∧
    (q.empty.1 = true ↔ q.try_pop_ptr = (none, q)) ∧
    q.empty.2 = q := by
  obtain ⟨dq⟩ := q
  cases dq <;>
    simp [ThreadsafeQueue.try_pop_ref, ThreadsafeQueue.try_pop_ptr, ThreadsafeQueue.empty]

end ThreadSafeQueue

/-! ## Theorems: `TaskQueue` -/

namespace FutureBasedTaskQueue

theorem run_in_order_append {ω ε : Type} (fs gs : List (function_void ω ε)) :
    ∀ w : ω, run_in_order (fs ++ gs) w =
      ((run_in_order fs w).1 ++ (run_in_order gs (run_in_order fs w).2).1,
        (run_in_order gs (run_in_order fs w).2).2) := by
  induction fs with
  | nil => intro w; simp [run_in_order]
  | cons f fs ih => intro w; simp [run_in_order, ih]

theorem run_in_order_length {ω ε : Type} (fs : List (function_void ω ε)) :
    ∀ w : ω, (run_in_order fs w).1.length = fs.length := by
  induction fs with
  | nil => intro w; simp [run_in_order]
  | cons f fs ih => intro w; simp [run_in_order, ih]

theorem tasks_from_append {ω ε : Type} (fs gs : List (function_void ω ε)) :
    ∀ k : Nat, tasks_from k (fs ++ gs) = tasks_from k fs ++ tasks_from (k + fs.length) gs := by
  induction fs with
  | nil => intro k; simp [tasks_from]
  | cons f fs ih =>
    intro k
    have e : k + 1 + fs.length = k + (fs.length + 1) := by omega
    rw [List.cons_append, tasks_from, tasks_from, ih, List.length_cons, e, List.cons_append]

theorem tasks_from_map_f {ω ε : Type} (fs : List (function_void ω ε)) :
    ∀ k : Nat, (tasks_from k fs).map (fun t => t.f) = fs := by
  induction fs with
  | nil => intro k; simp [tasks_from]
  | cons f fs ih => intro k; simp [tasks_from, ih]

/-- The state of a `TaskQueue` on which the callables `done` were posted and run, in this
order from the world `w`, and the callables `rest` were posted after them and wait. -/
theorem reach_post_task {ω ε : Type} (w : ω) (done rest : List (function_void ω ε))
    (tq : TaskQueue ω ε) (f : function_void ω ε)
    (ht : tq.tasks = tasks_from done.length rest)
    (hs : tq.shared = (run_in_order done w).1.map shared_state.ready ++
      List.replicate rest.length shared_state.pending)
    (hw : tq.world = (run_in_order done w).2) :
    (tq.post_task f).1 = done.length + rest.length ∧
    (tq.post_task f).2.tasks = tasks_from done.length (rest ++ [f]) ∧
    (tq.post_task f).2.shared = (run_in_order done w).1.map shared_state.ready ++
      List.replicate (rest ++ [f]).length shared_state.pending ∧
    (tq.post_task f).2.world = (run_in_order done w).2 ∧
    (tq.post_task f).2.stop_flag = tq.stop_flag := by
  have hlen : tq.shared.length = done.length + rest.length := by
    rw [hs]; simp [run_in_order_length]
  refine ⟨hlen, ?_, ?_, hw, rfl⟩
  · simp only [TaskQueue.post_task, ht, hlen, tasks_from_append, tasks_from]
  · simp only [TaskQueue.post_task, hs, List.length_append, List.length_singleton,
      List.replicate_succ', List.append_assoc]

theorem reach_invoke {ω ε : Type} (w : ω) (done rest : List (function_void ω ε))
    (tq : TaskQueue ω ε) (f : function_void ω ε)
    (ht : tq.tasks = tasks_from done.length (f :: rest))
    (hs : tq.shared = (run_in_order done w).1.map shared_state.ready ++
      List.replicate (f :: rest).length shared_state.pending)
    (hw : tq.world = (run_in_order done w).2) (hstop : tq.stop_flag = false) :
    ∃ tq1, tq.worker_iteration = some tq1 ∧
      tq1.tasks = tasks_from (done ++ [f]).length rest ∧
      tq1.shared = (run_in_order (done ++ [f]) w).1.map shared_state.ready ++
        List.replicate rest.length shared_state.pending ∧
      tq1.world = (run_in_order (done ++ [f]) w).2 ∧
      tq1.stop_flag = false := by
  refine ⟨packaged_task.invoke { f := f, state := done.length }
    { tq with tasks := tasks_from (done.length + 1) rest }, ?_, ?_, ?_, ?_, ?_⟩
  · simp [TaskQueue.worker_iteration, hstop, ht, tasks_from]
  · simp [packaged_task.invoke]
  · have hl : ((run_in_order done w).1.map (shared_state.ready (ε := ε))).length ≤
        done.length := by simp [run_in_order_length]
    have hl2 : done.length -
        ((run_in_order done w).1.map (shared_state.ready (ε := ε))).length = 0 := by
      simp [run_in_order_length]
    simp only [packaged_task.invoke, hs, hw, List.length_cons, List.replicate_succ]
    rw [List.set_append_right _ _ hl, hl2]
    simp [run_in_order_append, run_in_order]
  · simp [packaged_task.invoke, hw, run_in_order_append, run_in_order]
  · simp [packaged_task.invoke, hstop]

theorem run_events_reach {ω ε : Type} (w : ω) (evs : List (Event ω ε)) :
    ∀ (done rest : List (function_void ω ε)) (tq : TaskQueue ω ε),
      tq.tasks = tasks_from done.length rest →
      tq.shared = (run_in_order done w).1.map shared_state.ready ++
        List.replicate rest.length shared_state.pending →
      tq.world = (run_in_order done w).2 →
      ∃ more rest1 : List (function_void ω ε),
        (done ++ rest) ++ posted evs = (done ++ more) ++ rest1 ∧
        (run_events evs tq).tasks = tasks_from (done ++ more).length rest1 ∧
        (run_events evs tq).shared = (run_in_order (done ++ more) w).1.map shared_state.ready ++
          List.replicate rest1.length shared_state.pending ∧
        (run_events evs tq).world = (run_in_order (done ++ more) w).2 := by
  induction evs with
  | nil =>
    intro done rest tq ht hs hw
    exact ⟨[], rest, by simp [posted], by simpa [run_events] using ht,
      by simpa [run_events] using hs, by simpa [run_events] using hw⟩
  | cons ev evs ih =>
    intro done rest tq ht hs hw
    cases ev with
    | post_task f =>
      obtain ⟨_, h1, h2, h3, _⟩ := reach_post_task w done rest tq f ht hs hw
      obtain ⟨more, rest1, e, k1, k2, k3⟩ := ih done (rest ++ [f]) _ h1 h2 h3
      refine ⟨more, rest1, ?_, k1, k2, k3⟩
      rw [← e]
      simp [posted]
    | stop =>
      obtain ⟨more, rest1, e, k1, k2, k3⟩ := ih done rest tq.stop ht hs hw
      exact ⟨more, rest1, by simpa [posted] using e, k1, k2, k3⟩
    | worker_iteration =>
      have hidle : tq.worker_iteration = none ∨ tq.worker_iteration = some tq →
          ∃ more rest1 : List (function_void ω ε),
            (done ++ rest) ++ posted (Event.worker_iteration :: evs) = (done ++ more) ++ rest1 ∧
            (run_events (Event.worker_iteration :: evs) tq).tasks =
              tasks_from (done ++ more).length rest1 ∧
            (run_events (Event.worker_iteration :: evs) tq).shared =
              (run_in_order (done ++ more) w).1.map shared_state.ready ++
                List.replicate rest1.length shared_state.pending ∧
            (run_events (Event.worker_iteration :: evs) tq).world =
              (run_in_order (done ++ more) w).2 := by
        intro h
        have hsame : Event.apply tq Event.worker_iteration = tq := by
          rcases h with h | h <;> simp [Event.apply, h]
        obtain ⟨more, rest1, e, k1, k2, k3⟩ := ih done rest tq ht hs hw
        refine ⟨more, rest1, by simpa [posted] using e, ?_, ?_, ?_⟩
        · rw [run_events, hsame]; exact k1
        · rw [run_events, hsame]; exact k2
        · rw [run_events, hsame]; exact k3
      by_cases hstop : tq.stop_flag = true
      · exact hidle (Or.inl (by simp [TaskQueue.worker_iteration, hstop]))
      · have hstop : tq.stop_flag = false := by simpa using hstop
        cases rest with
        | nil =>
          exact hidle (Or.inr (by simp [TaskQueue.worker_iteration, hstop, ht, tasks_from]))
        | cons f rest =>
          obtain ⟨tq1, hstep, h1, h2, h3, _⟩ := reach_invoke w done rest tq f ht hs hw hstop
          obtain ⟨more, rest1, e, k1, k2, k3⟩ := ih (done ++ [f]) rest tq1 h1 h2 h3
          have happ : Event.apply tq Event.worker_iteration = tq1 := by
            simp [Event.apply, hstep]
          refine ⟨f :: more, rest1, ?_, ?_, ?_, ?_⟩
          · simpa [posted] using e
          · rw [run_events, happ]; simpa using k1
          · rw [run_events, happ]; simpa using k2
          · rw [run_events, happ]; simpa using k3

theorem future_get_of_shared {ω ε : Type} (tq : TaskQueue ω ε) (outs : List (Except ε Unit))
    (m : Nat)
    (hs : tq.shared = outs.map shared_state.ready ++ List.replicate m shared_state.pending)
    (i : Nat) : tq.future_get i = outs[i]? := by
  unfold TaskQueue.future_get
  rw [hs]
  by_cases hi : i < outs.length
  · rw [List.getElem?_append_left (by simpa using hi)]
    simp [List.getElem?_eq_getElem hi]
  · have hi : outs.length ≤ i := Nat.le_of_not_lt hi
    rw [List.getElem?_append_right (by simpa using hi), List.getElem?_eq_none hi,
      List.getElem?_replicate]
    split_ifs <;> rfl

theorem run_events_append {ω ε : Type} (evs later : List (Event ω ε)) :
    ∀ tq : TaskQueue ω ε,
      run_events (evs ++ later) tq = run_events later (run_events evs tq) := by
  induction evs with
  | nil => intro tq; rfl
  | cons ev evs ih => intro tq; simp [run_events, ih]

theorem run_events_init_reach {ω ε : Type} (w : ω) (evs : List (Event ω ε)) :
    ∃ done rest : List (function_void ω ε),
      posted evs = done ++ rest ∧
      (run_events evs (TaskQueue.init ε w)).tasks = tasks_from done.length rest ∧
      (run_events evs (TaskQueue.init ε w)).shared =
        (run_in_order done w).1.map shared_state.ready ++
          List.replicate rest.length shared_state.pending ∧
      (run_events evs (TaskQueue.init ε w)).world = (run_in_order done w).2 := by
  obtain ⟨more, rest1, e, k1, k2, k3⟩ :=
    run_events_reach w evs [] [] (TaskQueue.init ε w) rfl rfl rfl
  exact ⟨more, rest1, by simpa using e, by simpa using k1, by simpa using k2,
    by simpa using k3⟩

theorem run_events_init_summary {ω ε : Type} (w : ω) (evs : List (Event ω ε)) :
    ∃ k : Nat, k ≤ (posted evs).length ∧
      (run_events evs (TaskQueue.init ε w)).tasks = tasks_from k ((posted evs).drop k) ∧
      (run_events evs (TaskQueue.init ε w)).world =
        (run_in_order ((posted evs).take k) w).2 ∧
      ∀ i : Nat, (run_events evs (TaskQueue.init ε w)).future_get i =
        if i < k then (run_in_order (posted evs) w).1[i]? else none := by
  obtain ⟨done, rest, e, k1, k2, k3⟩ := run_events_init_reach w evs
  refine ⟨done.length, by simp [e], by simpa [e] using k1, by simpa [e] using k3, ?_⟩
  intro i
  rw [future_get_of_shared _ _ _ k2 i, e, run_in_order_append]
  by_cases hi : i < done.length
  · rw [if_pos hi, List.getElem?_append_left (by simpa [run_in_order_length] using hi)]
  · rw [if_neg hi, List.getElem?_eq_none (by simpa [run_in_order_length] using hi)]

theorem future_get_stable {ω ε : Type} (w : ω) (evs later : List (Event ω ε)) (i : Nat)
    (r : Except ε Unit)
    (h : (run_events evs (TaskQueue.init ε w)).future_get i = some r) :
    (run_events (evs ++ later) (TaskQueue.init ε w)).future_get i = some r := by
  obtain ⟨done, rest, _, k1, k2, k3⟩ := run_events_init_reach w evs
  obtain ⟨more, rest1, _, _, j2, _⟩ := run_events_reach w later done rest _ k1 k2 k3
  rw [future_get_of_shared _ _ _ k2 i] at h
  rw [run_events_append, future_get_of_shared _ _ _ j2 i, run_in_order_append]
  have hi : i < (run_in_order done w).1.length := by
    by_contra hcon
    rw [List.getElem?_eq_none (Nat.le_of_not_lt hcon)] at h
    exact Option.noConfusion h
  rw [List.getElem?_append_left hi, h]

theorem worker_thread_reach {ω ε : Type} (w : ω) (n : Nat) :
    ∀ (done rest : List (function_void ω ε)) (tq : TaskQueue ω ε),
      tq.tasks = tasks_from done.length rest →
      tq.shared = (run_in_order done w).1.map shared_state.ready ++
        List.replicate rest.length shared_state.pending →
      tq.world = (run_in_order done w).2 →
      tq.stop_flag = false →
      (tq.worker_thread n).tasks = tasks_from (done ++ rest.take n).length (rest.drop n) ∧
      (tq.worker_thread n).shared =
        (run_in_order (done ++ rest.take n) w).1.map shared_state.ready ++
          List.replicate (rest.drop n).length shared_state.pending ∧
      (tq.worker_thread n).world = (run_in_order (done ++ rest.take n) w).2 ∧
      (tq.worker_thread n).stop_flag = false := by
  induction n with
  | zero =>
    intro done rest tq ht hs hw hstop
    simpa [TaskQueue.worker_thread] using ⟨ht, hs, hw, hstop⟩
  | succ n ih =>
    intro done rest tq ht hs hw hstop
    cases rest with
    | nil =>
      have hstep : tq.worker_iteration = some tq := by
        simp [TaskQueue.worker_iteration, hstop, ht, tasks_from]
      have := ih done [] tq ht hs hw hstop
      simpa [TaskQueue.worker_thread, hstep] using this
    | cons f rest =>
      obtain ⟨tq1, hstep, h1, h2, h3, h4⟩ := reach_invoke w done rest tq f ht hs hw hstop
      have := ih (done ++ [f]) rest tq1 h1 h2 h3 h4
      simpa [TaskQueue.worker_thread, hstep] using this

theorem post_all_reach {ω ε : Type} (w : ω) (fs : List (function_void ω ε)) :
    (run_events (fs.map Event.post_task) (TaskQueue.init ε w)).tasks = tasks_from 0 fs ∧
    (run_events (fs.map Event.post_task) (TaskQueue.init ε w)).shared =
      List.replicate fs.length shared_state.pending ∧
    (run_events (fs.map Event.post_task) (TaskQueue.init ε w)).world = w ∧
    (run_events (fs.map Event.post_task) (TaskQueue.init ε w)).stop_flag = false := by
  have key : ∀ (gs fs : List (function_void ω ε)) (tq : TaskQueue ω ε),
      tq.tasks = tasks_from 0 gs → tq.shared = List.replicate gs.length shared_state.pending →
      tq.world = w → tq.stop_flag = false →
      (run_events (fs.map Event.post_task) tq).tasks = tasks_from 0 (gs ++ fs) ∧
      (run_events (fs.map Event.post_task) tq).shared =
        List.replicate (gs ++ fs).length shared_state.pending ∧
      (run_events (fs.map Event.post_task) tq).world = w ∧
      (run_events (fs.map Event.post_task) tq).stop_flag = false := by
    intro gs fs
    induction fs generalizing gs with
    | nil =>
      intro tq ht hs hw hstop
      simpa [run_events] using ⟨ht, hs, hw, hstop⟩
    | cons f fs ih =>
      intro tq ht hs hw hstop
      obtain ⟨_, h1, h2, h3, h4⟩ := reach_post_task w [] gs tq f (by simpa using ht)
        (by simpa [run_in_order] using hs) (by simpa [run_in_order] using hw)
      have := ih (gs ++ [f]) (tq.post_task f).2 (by simpa using h1)
        (by simpa [run_in_order] using h2) (by simpa [run_in_order] using h3)
        (by rw [h4, hstop])
      simpa [run_events, Event.apply] using this
  simpa using key [] fs (TaskQueue.init ε w) rfl rfl rfl rfl

theorem drained_reach {ω ε : Type} (w : ω) (fs : List (function_void ω ε)) (n : Nat) :
    ((run_events (fs.map Event.post_task) (TaskQueue.init ε w)).worker_thread n).tasks =
      tasks_from (fs.take n).length (fs.drop n) ∧
    ((run_events (fs.map Event.post_task) (TaskQueue.init ε w)).worker_thread n).world =
      (run_in_order (fs.take n) w).2 ∧
    ((run_events (fs.map Event.post_task) (TaskQueue.init ε w)).worker_thread n).stop_flag =
      false ∧
    ∀ j : Nat,
      ((run_events (fs.map Event.post_task) (TaskQueue.init ε w)).worker_thread n).future_get j
        = if j < n then (run_in_order fs w).1[j]? else none := by
  obtain ⟨h1, h2, h3, h4⟩ := post_all_reach w fs
  obtain ⟨k1, k2, k3, k4⟩ := worker_thread_reach w n [] fs _ (by simpa using h1)
    (by simpa [run_in_order] using h2) (by simpa [run_in_order] using h3) h4
  refine ⟨by simpa using k1, by simpa using k3, k4, ?_⟩
  intro j
  rw [future_get_of_shared _ _ _ k2 j]
  simp only [List.nil_append]
  conv_rhs => rw [← List.take_append_drop n fs, run_in_order_append]
  by_cases hj : j < n
  · rw [if_pos hj]
    by_cases hj2 : j < fs.length
    · rw [List.getElem?_append_left
        (by simp [run_in_order_length]; omega)]
    · rw [List.getElem?_eq_none (by simp [run_in_order_length]; omega),
        List.getElem?_eq_none (by simp [run_in_order_length]; omega)]
  · rw [if_neg hj, List.getElem?_eq_none (by simp [run_in_order_length]; omega)]

end FutureBasedTaskQueue

namespace FutureBasedTaskQueue

/-- C8: when the `i`-th of the posted tasks raises the failure `e`, the failure is stored in
the future of that task, where `get()` finds it from the round that ran the task on; the
loop of the worker is not left: after any number `n` of rounds the first `n` tasks, and
only they, have been run, each future holding the outcome of its own task, the loop is
still running, and after as many rounds as tasks the queue is empty. -/
theorem worker_survives_failing_task {ω ε : Type} (w : ω) (fs : List (function_void ω ε))
    (i : Nat) (e : ε) (hraise : (run_in_order fs w).1[i]? = some (Except.error e)) :
    (∀ n : Nat, i < n →
      ((run_events (fs.map Event.post_task) (TaskQueue.init ε w)).worker_thread n).future_get i
        = some (Except.error e)) ∧
    (∀ n j : Nat,
      ((run_events (fs.map Event.post_task) (TaskQueue.init ε w)).worker_thread n).future_get j
        = if j < n then (run_in_order fs w).1[j]? else none) ∧
    (∀ n : Nat,
      ((run_events (fs.map Event.post_task) (TaskQueue.init ε w)).worker_thread n).worker_iteration
        ≠ none) ∧
    (∀ n : Nat,
      ((run_events (fs.map Event.post_task) (TaskQueue.init ε w)).worker_thread n).tasks =
        tasks_from (fs.take n).length (fs.drop n) ∧
      ((run_events (fs.map Event.post_task) (TaskQueue.init ε w)).worker_thread n).world =
        (run_in_order (fs.take n) w).2) ∧
    ((run_events (fs.map Event.post_task) (TaskQueue.init ε w)).worker_thread fs.length).tasks
      = [] := by
  refine ⟨?_, fun n j => (drained_reach w fs n).2.2.2 j, ?_,
    fun n => ⟨(drained_reach w fs n).1, (drained_reach w fs n).2.1⟩, ?_⟩
  · intro n hn
    rw [(drained_reach w fs n).2.2.2 i, if_pos hn, hraise]
  · intro n
    have hstop := (drained_reach w fs n).2.2.1
    unfold TaskQueue.worker_iteration
    rw [hstop]
    simp only [Bool.false_eq_true, if_false]
    split <;> simp
  · have := (drained_reach w fs fs.length).1
    simpa [tasks_from] using this

/-- C8 at two posted tasks, the first of which throws `"boom"`: its future holds `"boom"`,
and the second task is run after it. -/
theorem worker_survives_failing_task_witness :
    (run_in_order
      [throwing "boom", printing "second"] [] :
        List (Except String Unit) × List String).1[0]? = some (Except.error "boom") ∧
    ((run_events
      ([throwing "boom", printing "second"].map Event.post_task)
      (TaskQueue.init String [])).worker_thread 2).future_get 0 = some (Except.error "boom") ∧
    ((run_events
      ([throwing "boom", printing "second"].map Event.post_task)
      (TaskQueue.init String [])).worker_thread 2).future_get 1 = some (Except.ok ()) ∧
    ((run_events
      ([throwing "boom", printing "second"].map Event.post_task)
      (TaskQueue.init String [])).worker_thread 2).world = ["boom", "second"] :=
  ⟨rfl,
    (worker_survives_failing_task []
      [throwing "boom", printing "second"] 0 "boom" rfl).1 2 (by decide),
    rfl, rfl⟩

/-- C9: `stop()` changes the stop flag and nothing else: the queued tasks, the shared state
of every future and the world are as before; a worker that tests the flag after `stop()`
leaves its loop, so that however long it is observed no task is removed or run and every
future is as it was before `stop()`. -/
theorem stop_changes_only_stop_flag {ω ε : Type} (tq : TaskQueue ω ε) :
    tq.stop.stop_flag = true ∧
    tq.stop.tasks = tq.tasks ∧
    tq.stop.shared = tq.shared ∧
    tq.stop.world = tq.world ∧
    (∀ res : Nat, tq.stop.future_get res = tq.future_get res) ∧
    tq.stop.worker_iteration = none ∧
    (∀ n : Nat, tq.stop.worker_thread n = tq.stop) ∧
    (∀ n res : Nat, (tq.stop.worker_thread n).future_get res = tq.future_get res) := by
  have hstep : tq.stop.worker_iteration = none := by
    simp [TaskQueue.worker_iteration, TaskQueue.stop]
  have hrun : ∀ n : Nat, tq.stop.worker_thread n = tq.stop := by
    intro n
    cases n with
    | zero => rfl
    | succ n => simp [TaskQueue.worker_thread, hstep]
  refine ⟨rfl, rfl, rfl, rfl, fun _ => rfl, hstep, hrun, ?_⟩
  intro n res
  rw [hrun n]
  rfl

end FutureBasedTaskQueue

/-! ## Theorems: termination, dispatch and partition step of the sorts -/

namespace QuickSort

theorem quick_sort_depth_of_lt {α : Type} [LinearOrder α] (P : StdPartition α) (depth : Nat) :
    ∀ l : List α, l.length < depth → quick_sort_depth P depth l = some (quick_sort P l) := by
  induction depth with
  | zero => intro l hl; exact absurd hl (Nat.not_lt_zero _)
  | succ depth ih =>
    intro l hl
    cases l with
    | nil => rw [quick_sort_depth, quick_sort_nil]
    | cons pivot input =>
      have hlen : input.length < depth := by simpa using hl
      have h1 := ih _ (Nat.lt_of_le_of_lt
        (P.length_fst_le (fun t => decide (t < pivot)) input) hlen)
      have h2 := ih _ (Nat.lt_of_le_of_lt
        (P.length_snd_le (fun t => decide (t < pivot)) input) hlen)
      rw [quick_sort_depth, h1, h2, quick_sort_cons]

theorem quick_sort_parallel_depth_of_lt {α : Type} [LinearOrder α] (P : StdPartition α)
    (cutoff depth : Nat) :
    ∀ l : List α, l.length + 1 < depth →
      quick_sort_parallel_depth P cutoff depth l = some (quick_sort_parallel_run P cutoff l).1 := by
  induction depth with
  | zero => intro l hl; exact absurd hl (Nat.not_lt_zero _)
  | succ depth ih =>
    intro l hl
    cases l with
    | nil =>
      rw [quick_sort_parallel_depth, quick_sort_parallel_run_nil,
        quick_sort_depth_of_lt P depth [] (by simpa using hl)]
    | cons pivot input =>
      have hlen : input.length + 1 < depth := by simpa using hl
      rw [quick_sort_parallel_depth]
      by_cases hc : (pivot :: input).length < cutoff
      · rw [if_pos hc, quick_sort_parallel_run_below P cutoff _ hc,
          quick_sort_depth_of_lt P depth _ (by simpa using hlen)]
      · have h1 := ih (P.run (fun t => decide (t < pivot)) input).1 (by
          have := P.length_fst_le (fun t => decide (t < pivot)) input
          omega)
        have h2 := ih (P.run (fun t => decide (t < pivot)) input).2 (by
          have := P.length_snd_le (fun t => decide (t < pivot)) input
          omega)
        rw [if_neg hc, h1, h2, quick_sort_parallel_run_above P cutoff pivot input
          (Nat.le_of_not_lt hc)]

theorem dispatch_policy_of_length_le {α : Type} [LinearOrder α] (P : StdPartition α)
    (cutoff n : Nat) :
    ∀ l : List α, l.length ≤ n → ∀ e ∈ (quick_sort_parallel_run P cutoff l).2,
      (e.1 = launch.async ↔ cutoff < e.2) ∧ (e.1 = launch.deferred ↔ e.2 ≤ cutoff) := by
  induction n with
  | zero =>
    intro l hl e he
    have : l = [] := List.length_eq_zero.mp (Nat.le_zero.mp hl)
    subst this
    rw [quick_sort_parallel_run_nil] at he
    exact absurd he (List.not_mem_nil e)
  | succ n ih =>
    intro l hl e he
    cases l with
    | nil =>
      rw [quick_sort_parallel_run_nil] at he
      exact absurd he (List.not_mem_nil e)
    | cons pivot input =>
      have hlen : input.length ≤ n := by simpa using hl
      by_cases hc : (pivot :: input).length < cutoff
      · rw [quick_sort_parallel_run_below P cutoff _ hc] at he
        exact absurd he (List.not_mem_nil e)
      · rw [quick_sort_parallel_run_above P cutoff pivot input (Nat.le_of_not_lt hc)] at he
        simp only [List.cons_append, List.mem_cons, List.mem_append] at he
        rcases he with rfl | he | he
        · dsimp only
          split_ifs with hs
          · exact ⟨⟨fun _ => hs, fun _ => rfl⟩,
              ⟨(fun h => nomatch h), fun h => absurd hs (Nat.not_lt.mpr h)⟩⟩
          · exact ⟨⟨(fun h => nomatch h), fun h => absurd h hs⟩,
              ⟨fun _ => Nat.le_of_not_lt hs, fun _ => rfl⟩⟩
        · exact ih _ ((P.length_fst_le _ input).trans hlen) e he
        · exact ih _ ((P.length_snd_le _ input).trans hlen) e he

theorem StdPartition.fst_perm_filter {α : Type} (P : StdPartition α) (pred : α → Bool)
    (l : List α) : List.Perm (P.run pred l).1 (l.filter pred) := by
  have h := (P.perm pred l).filter pred
  have h1 : (P.run pred l).1.filter pred = (P.run pred l).1 :=
    List.filter_eq_self.mpr (fun x hx => P.fst_sat pred l x hx)
  have h2 : (P.run pred l).2.filter pred = [] :=
    List.filter_eq_nil_iff.mpr (fun x hx => by simp [P.snd_unsat pred l x hx])
  rwa [List.filter_append, h1, h2, List.append_nil] at h

theorem StdPartition.snd_perm_filter {α : Type} (P : StdPartition α) (pred : α → Bool)
    (l : List α) : List.Perm (P.run pred l).2 (l.filter (fun t => !pred t)) := by
  have h := (P.perm pred l).filter (fun t => !pred t)
  have h1 : (P.run pred l).2.filter (fun t => !pred t) = (P.run pred l).2 :=
    List.filter_eq_self.mpr (fun x hx => by simp [P.snd_unsat pred l x hx])
  have h2 : (P.run pred l).1.filter (fun t => !pred t) = [] :=
    List.filter_eq_nil_iff.mpr (fun x hx => by simp [P.fst_sat pred l x hx])
  rwa [List.filter_append, h1, h2, List.nil_append] at h

/-- C11: `quick_sort` and `quick_sort_parallel` terminate on every list `l`: the calls never
nest deeper than the length of `l` plus one (plus two with the call of `quick_sort` that
`quick_sort_parallel` makes), because both recursive calls on an input `pivot :: input`
receive a list strictly shorter than it; the empty input is the base case and is returned
unchanged. -/
theorem quick_sort_terminates {α : Type} [LinearOrder α] (P : StdPartition α) (l : List α)
    (pivot : α) (input : List α) :
    quick_sort_depth P (l.length + 1) l = some (quick_sort P l) ∧
    quick_sort_parallel_depth P 10000 (l.length + 2) l = some (quick_sort_parallel P l) ∧
    (P.run (fun t => decide (t < pivot)) input).1.length < (pivot :: input).length ∧
    (P.run (fun t => decide (t < pivot)) input).2.length < (pivot :: input).length ∧
    quick_sort P [] = ([] : List α) ∧
    quick_sort_parallel P [] = ([] : List α) ∧
    quick_sort_depth P 1 [] = some ([] : List α) ∧
    quick_sort_parallel_depth P 10000 2 [] = some ([] : List α) := by
  refine ⟨quick_sort_depth_of_lt P _ l (Nat.lt_succ_self _),
    quick_sort_parallel_depth_of_lt P 10000 _ l (Nat.lt_succ_self _),
    Nat.lt_succ_of_le (P.length_fst_le _ input),
    Nat.lt_succ_of_le (P.length_snd_le _ input), quick_sort_nil P, ?_, rfl, rfl⟩
  unfold quick_sort_parallel
  rw [quick_sort_parallel_run_nil, quick_sort_nil]

/-- C12: on every input with fewer than 10000 elements `quick_sort_parallel` dispatches no
sub-task, neither async nor deferred, at any level, and returns the result of `quick_sort`
on the input. -/
theorem quick_sort_parallel_sequential_below_cutoff {α : Type} [LinearOrder α]
    (P : StdPartition α) (input : List α) (h : input.length < 10000) :
    quick_sort_parallel_run P 10000 input = (quick_sort P input, []) ∧
    (quick_sort_parallel_run P 10000 input).2 = [] ∧
    quick_sort_parallel P input = quick_sort P input := by
  have hrun := quick_sort_parallel_run_below P 10000 input h
  refine ⟨hrun, ?_, ?_⟩
  · rw [hrun]
  · unfold quick_sort_parallel
    rw [hrun]

/-- C12 at the input `[5,3,8,1]`: no sub-task is dispatched and the result is that of
`quick_sort`. -/
theorem quick_sort_parallel_sequential_below_cutoff_witness :
    ([5, 3, 8, 1] : List Int).length < 10000 ∧
    quick_sort_parallel_run (libstdcxx Int) 10000 [5, 3, 8, 1] =
      (quick_sort (libstdcxx Int) [5, 3, 8, 1], []) ∧
    quick_sort (libstdcxx Int) [5, 3, 8, 1] = [1, 3, 5, 8] :=
  ⟨by decide,
    (quick_sort_parallel_sequential_below_cutoff (libstdcxx Int) [5, 3, 8, 1] (by decide)).1,
    by simp [quick_sort, quick_sort_run, libstdcxx, bidirectional_partition, partition_loop]⟩

/-- C14, as the claim states it: on the input `[5,7,1,8,2,9,3,6]`, pivot 5, the partition
step of libstdc++ yields the groups `[3,1,2]` and `[8,9,7,6]`, whereas the elements less
than 5 in their original order are `[1,2,3]` and the others `[7,8,9,6]`: the step is not
stable. -/
theorem partition_step_not_stable :
    (libstdcxx Int).run (fun t => decide (t < 5)) [7, 1, 8, 2, 9, 3, 6] =
      ([3, 1, 2], [8, 9, 7, 6]) ∧
    stable_partition (fun t : Int => decide (t < 5)) [7, 1, 8, 2, 9, 3, 6] =
      ([1, 2, 3], [7, 8, 9, 6]) ∧
    ((libstdcxx Int).run (fun t => decide (t < 5)) [7, 1, 8, 2, 9, 3, 6]).1 ≠
      (stable_partition (fun t : Int => decide (t < 5)) [7, 1, 8, 2, 9, 3, 6]).1 ∧
    ((libstdcxx Int).run (fun t => decide (t < 5)) [7, 1, 8, 2, 9, 3, 6]).2 ≠
      (stable_partition (fun t : Int => decide (t < 5)) [7, 1, 8, 2, 9, 3, 6]).2 := by
  decide

theorem quick_sort_run_nil {α : Type} [LinearOrder α] (P : StdPartition α) :
    quick_sort_run P ([] : List α) = ([], []) := by
  rw [quick_sort_run]

theorem quick_sort_run_cons {α : Type} [LinearOrder α] (P : StdPartition α) (pivot : α)
    (input : List α) :
    quick_sort_run P (pivot :: input) =
      ((quick_sort_run P (P.run (fun t => decide (t < pivot)) input).1).1 ++
        pivot :: (quick_sort_run P (P.run (fun t => decide (t < pivot)) input).2).1,
       { pivot := pivot, input := input,
         lower_part := (P.run (fun t => decide (t < pivot)) input).1,
         remainder := (P.run (fun t => decide (t < pivot)) input).2 } ::
        (quick_sort_run P (P.run (fun t => decide (t < pivot)) input).1).2 ++
        (quick_sort_run P (P.run (fun t => decide (t < pivot)) input).2).2) := by
  rw [quick_sort_run]

theorem quick_sort_parallel_trace_below {α : Type} [LinearOrder α] (P : StdPartition α)
    (cutoff : Nat) (input : List α) (h : input.length < cutoff) :
    (quick_sort_parallel_trace P cutoff input).2.2 = (quick_sort_run P input).2 := by
  cases input with
  | nil => rw [quick_sort_parallel_trace]
  | cons pivot input => rw [quick_sort_parallel_trace, if_pos h]

theorem quick_sort_parallel_trace_above {α : Type} [LinearOrder α] (P : StdPartition α)
    (cutoff : Nat) (pivot : α) (input : List α) (h : cutoff ≤ (pivot :: input).length) :
    (quick_sort_parallel_trace P cutoff (pivot :: input)).2.2 =
      { pivot := pivot, input := input,
        lower_part := (P.run (fun t => decide (t < pivot)) input).1,
        remainder := (P.run (fun t => decide (t < pivot)) input).2 } ::
        (quick_sort_parallel_trace P cutoff (P.run (fun t => decide (t < pivot)) input).1).2.2 ++
        (quick_sort_parallel_trace P cutoff (P.run (fun t => decide (t < pivot)) input).2).2.2 := by
  rw [quick_sort_parallel_trace, if_neg (Nat.not_lt.mpr h)]

theorem quick_sort_run_steps_of_length_le {α : Type} [LinearOrder α] (P : StdPartition α)
    (n : Nat) :
    ∀ l : List α, l.length ≤ n → ∀ s ∈ (quick_sort_run P l).2,
      List.Perm s.lower_part (s.input.filter (fun t => decide (t < s.pivot))) ∧
      List.Perm s.remainder (s.input.filter (fun t => !decide (t < s.pivot))) := by
  induction n with
  | zero =>
    intro l hl s hs
    have : l = [] := List.length_eq_zero.mp (Nat.le_zero.mp hl)
    subst this
    rw [quick_sort_run_nil] at hs
    exact absurd hs (List.not_mem_nil s)
  | succ n ih =>
    intro l hl s hs
    cases l with
    | nil =>
      rw [quick_sort_run_nil] at hs
      exact absurd hs (List.not_mem_nil s)
    | cons pivot input =>
      have hlen : input.length ≤ n := by simpa using hl
      rw [quick_sort_run_cons] at hs
      simp only [List.cons_append, List.mem_cons, List.mem_append] at hs
      rcases hs with rfl | hs | hs
      · exact ⟨P.fst_perm_filter _ input, P.snd_perm_filter _ input⟩
      · exact ih _ ((P.length_fst_le _ input).trans hlen) s hs
      · exact ih _ ((P.length_snd_le _ input).trans hlen) s hs

theorem quick_sort_parallel_trace_steps_of_length_le {α : Type} [LinearOrder α]
    (P : StdPartition α) (cutoff n : Nat) :
    ∀ l : List α, l.length ≤ n → ∀ s ∈ (quick_sort_parallel_trace P cutoff l).2.2,
      List.Perm s.lower_part (s.input.filter (fun t => decide (t < s.pivot))) ∧
      List.Perm s.remainder (s.input.filter (fun t => !decide (t < s.pivot))) := by
  induction n with
  | zero =>
    intro l hl s hs
    by_cases hc : l.length < cutoff
    · rw [quick_sort_parallel_trace_below P cutoff l hc] at hs
      exact quick_sort_run_steps_of_length_le P l.length l (Nat.le_refl _) s hs
    · have : l = [] := List.length_eq_zero.mp (Nat.le_zero.mp hl)
      subst this
      rw [quick_sort_parallel_trace, quick_sort_run_nil] at hs
      exact absurd hs (List.not_mem_nil s)
  | succ n ih =>
    intro l hl s hs
    by_cases hc : l.length < cutoff
    · rw [quick_sort_parallel_trace_below P cutoff l hc] at hs
      exact quick_sort_run_steps_of_length_le P l.length l (Nat.le_refl _) s hs
    · cases l with
      | nil =>
        rw [quick_sort_parallel_trace, quick_sort_run_nil] at hs
        exact absurd hs (List.not_mem_nil s)
      | cons pivot input =>
        have hlen : input.length ≤ n := by simpa using hl
        rw [quick_sort_parallel_trace_above P cutoff pivot input (Nat.le_of_not_lt hc)] at hs
        simp only [List.cons_append, List.mem_cons, List.mem_append] at hs
        rcases hs with rfl | hs | hs
        · exact ⟨P.fst_perm_filter _ input, P.snd_perm_filter _ input⟩
        · exact ih _ ((P.length_fst_le _ input).trans hlen) s hs
        · exact ih _ ((P.length_snd_le _ input).trans hlen) s hs

theorem quick_sort_parallel_trace_head {α : Type} [LinearOrder α] (P : StdPartition α)
    (cutoff : Nat) (pivot : α) (input : List α) :
    (quick_sort_parallel_trace P cutoff (pivot :: input)).2.2.head? =
      some { pivot := pivot, input := input,
             lower_part := (P.run (fun t => decide (t < pivot)) input).1,
             remainder := (P.run (fun t => decide (t < pivot)) input).2 } := by
  by_cases hc : (pivot :: input).length < cutoff
  · rw [quick_sort_parallel_trace_below P cutoff _ hc, quick_sort_run_cons]
    rfl
  · rw [quick_sort_parallel_trace_above P cutoff pivot input (Nat.le_of_not_lt hc)]
    rfl

/-- C14, amended: the partition step that `quick_sort` and `quick_sort_parallel` perform on
a non-empty input `pivot :: input` is not stable, but its groups hold the right elements:
the less-than-pivot group `lower_part` holds exactly the elements of `input` that are
`< pivot`, each as often as in `input`, and the remainder group exactly those that are not
`< pivot`; both are rearrangements of what a stable partition would give, and the two
sorts go on with these very groups.  The same holds of every partition step that either
sort performs further down its recursion.  On `[5,7,1,8,2,9,3,6]` the step of `quick_sort`
with libstdc++ yields the groups `[3,1,2]` and `[8,9,7,6]`. -/
theorem partition_step_groups {α : Type} [LinearOrder α] (P : StdPartition α) (pivot : α)
    (input : List α) :
    (∃ lower_part remainder : List α,
      (quick_sort_run P (pivot :: input)).2.head? =
        some { pivot := pivot, input := input, lower_part := lower_part,
               remainder := remainder } ∧
      (quick_sort_parallel_trace P 10000 (pivot :: input)).2.2.head? =
        some { pivot := pivot, input := input, lower_part := lower_part,
               remainder := remainder } ∧
      List.Perm lower_part (input.filter (fun t => decide (t < pivot))) ∧
      List.Perm remainder (input.filter (fun t => !decide (t < pivot))) ∧
      List.Perm lower_part (stable_partition (fun t => decide (t < pivot)) input).1 ∧
      List.Perm remainder (stable_partition (fun t => decide (t < pivot)) input).2 ∧
      (∀ x : α, lower_part.count x = if x < pivot then input.count x else 0) ∧
      (∀ x : α, remainder.count x = if x < pivot then 0 else input.count x) ∧
      quick_sort P (pivot :: input) =
        quick_sort P lower_part ++ pivot :: quick_sort P remainder ∧
      quick_sort_parallel P (pivot :: input) =
        quick_sort_parallel P lower_part ++ pivot :: quick_sort_parallel P remainder) ∧
    (∀ s ∈ (quick_sort_run P (pivot :: input)).2,
      List.Perm s.lower_part (s.input.filter (fun t => decide (t < s.pivot))) ∧
      List.Perm s.remainder (s.input.filter (fun t => !decide (t < s.pivot)))) ∧
    (∀ s ∈ (quick_sort_parallel_trace P 10000 (pivot :: input)).2.2,
      List.Perm s.lower_part (s.input.filter (fun t => decide (t < s.pivot))) ∧
      List.Perm s.remainder (s.input.filter (fun t => !decide (t < s.pivot)))) ∧
    (quick_sort_run (libstdcxx Int) [5, 7, 1, 8, 2, 9, 3, 6]).2.head? =
      some { pivot := 5, input := [7, 1, 8, 2, 9, 3, 6], lower_part := [3, 1, 2],
             remainder := [8, 9, 7, 6] } := by
  have h1 := P.fst_perm_filter (fun t => decide (t < pivot)) input
  have h2 := P.snd_perm_filter (fun t => decide (t < pivot)) input
  refine ⟨⟨_, _, ?_, quick_sort_parallel_trace_head P 10000 pivot input, h1, h2, h1, h2,
    ?_, ?_, quick_sort_cons P pivot input, ?_⟩,
    quick_sort_run_steps_of_length_le P _ _ (Nat.le_refl _),
    quick_sort_parallel_trace_steps_of_length_le P 10000 _ _ (Nat.le_refl _), ?_⟩
  · rw [quick_sort_run_cons]
    rfl
  · intro x
    rw [h1.count_eq]
    split_ifs with hx
    · exact List.count_filter (by simpa using hx)
    · exact List.count_eq_zero.mpr (fun hmem => hx (by simpa using (List.mem_filter.mp hmem).2))
  · intro x
    rw [h2.count_eq]
    split_ifs with hx
    · exact List.count_eq_zero.mpr
        (fun hmem => by simpa [hx] using (List.mem_filter.mp hmem).2)
    · exact List.count_filter (by simpa using hx)
  · unfold quick_sort_parallel
    rw [quick_sort_parallel_run_fst, quick_sort_parallel_run_fst, quick_sort_parallel_run_fst,
      quick_sort_cons]
  · rw [quick_sort_run_cons]
    rfl

/-- C17: in `quick_sort_parallel` on an input that reaches the dispatch (10000 elements or
more), the sub-task is launched `async` exactly when the less-than-pivot part has more than
10000 elements and `deferred` exactly when it has 10000 or fewer, and this holds for every
sub-task dispatched at any level; whatever the policy, the list spliced before the pivot is
`quick_sort_parallel` of that part. -/
theorem async_only_above_cutoff {α : Type} [LinearOrder α] (P : StdPartition α) (pivot : α)
    (input : List α) (h : 10000 ≤ (pivot :: input).length) :
    quick_sort_parallel P (pivot :: input) =
      quick_sort_parallel P (P.run (fun t => decide (t < pivot)) input).1 ++
        pivot :: quick_sort_parallel P (P.run (fun t => decide (t < pivot)) input).2 ∧
    (∃ policy : launch,
      (quick_sort_parallel_run P 10000 (pivot :: input)).2 =
        (policy, (P.run (fun t => decide (t < pivot)) input).1.length) ::
          (quick_sort_parallel_run P 10000 (P.run (fun t => decide (t < pivot)) input).1).2 ++
          (quick_sort_parallel_run P 10000 (P.run (fun t => decide (t < pivot)) input).2).2 ∧
      (policy = launch.async ↔ 10000 < (P.run (fun t => decide (t < pivot)) input).1.length) ∧
      (policy = launch.deferred ↔
        (P.run (fun t => decide (t < pivot)) input).1.length ≤ 10000)) ∧
    (∀ e ∈ (quick_sort_parallel_run P 10000 (pivot :: input)).2,
      (e.1 = launch.async ↔ 10000 < e.2) ∧ (e.1 = launch.deferred ↔ e.2 ≤ 10000)) := by
  have hrun := quick_sort_parallel_run_above P 10000 pivot input h
  have hall := dispatch_policy_of_length_le P 10000 (pivot :: input).length (pivot :: input)
    (Nat.le_refl _)
  refine ⟨?_, ⟨_, congrArg Prod.snd hrun, ?_⟩, hall⟩
  · unfold quick_sort_parallel
    rw [hrun]
  · exact hall _ (by rw [hrun]; exact List.mem_cons_self _ _)

/-- C17 at an input of 10000 zeros: nothing is less than the pivot, the less-than-pivot
part is empty and its sub-task is dispatched `deferred`.  With the cutoff at 3 in place of
10000, the input `[5,3,8,1,9,0,4]` dispatches a part of 4 elements `async` and a part of 2
elements `deferred`. -/
theorem async_only_above_cutoff_witness :
    10000 ≤ ((0 : Int) :: List.replicate 9999 0).length ∧
    quick_sort_parallel (libstdcxx Int) (0 :: List.replicate 9999 0) =
      quick_sort_parallel (libstdcxx Int)
          ((libstdcxx Int).run (fun t => decide (t < 0)) (List.replicate 9999 0)).1 ++
        0 :: quick_sort_parallel (libstdcxx Int)
          ((libstdcxx Int).run (fun t => decide (t < 0)) (List.replicate 9999 0)).2 ∧
    ((libstdcxx Int).run (fun t => decide (t < 0)) (List.replicate 9999 0)).1 = [] ∧
    quick_sort_parallel_run (libstdcxx Int) 3 [5, 3, 8, 1, 9, 0, 4] =
      ([0, 1, 3, 4, 5, 8, 9], [(launch.async, 4), (launch.deferred, 2)]) := by
  have hlen : 10000 ≤ ((0 : Int) :: List.replicate 9999 0).length := by
    rw [List.length_cons, List.length_replicate]
  refine ⟨hlen, (async_only_above_cutoff (libstdcxx Int) 0 (List.replicate 9999 0)
    hlen).1, ?_, ?_⟩
  · refine List.eq_nil_iff_forall_not_mem.mpr (fun x hx => ?_)
    have hsat := (libstdcxx Int).fst_sat _ _ x hx
    have hmem : x ∈ List.replicate 9999 (0 : Int) :=
      ((libstdcxx Int).perm _ _).subset (List.mem_append_left _ hx)
    rw [List.eq_of_mem_replicate hmem] at hsat
    exact absurd hsat (by decide)
  · simp [quick_sort_parallel_run, quick_sort_parallel_trace, quick_sort, quick_sort_run,
      libstdcxx, bidirectional_partition,
      partition_loop]

end QuickSort

/-! ## Theorems: `shared_future_example` -/

namespace SharedFuture

theorem Step.apply_values_length (s : State) (step : Step) :
    (step.apply s).values.length = s.values.length := by
  cases step with
  | set_value =>
    simp only [Step.apply, State.set_value]
    split <;> rfl
  | worker id =>
    simp only [Step.apply, State.worker]
    split
    · split
      · rfl
      · simp
    · rfl

theorem run_schedule_values_length (schedule : List Step) :
    ∀ s : State, (run_schedule schedule s).values.length = s.values.length := by
  induction schedule with
  | nil => intro s; rfl
  | cons step steps ih =>
    intro s
    rw [run_schedule, ih, Step.apply_values_length]

theorem run_schedule_append (pre post : List Step) :
    ∀ s : State, run_schedule (pre ++ post) s = run_schedule post (run_schedule pre s) := by
  induction pre with
  | nil => intro s; rfl
  | cons step steps ih => intro s; simp [run_schedule, ih]

/-- Every value read so far is the value stored in the shared state, and the shared state
is pending or holds 42. -/
theorem Step.apply_agree (s : State) (step : Step)
    (hs : s.shared = none ∨ s.shared = some 42)
    (hv : ∀ (id : Nat) (v : Int), s.values[id]? = some (some v) → s.shared = some v) :
    ((step.apply s).shared = none ∨ (step.apply s).shared = some 42) ∧
    ∀ (id : Nat) (v : Int), (step.apply s).values[id]? = some (some v) →
      (step.apply s).shared = some v := by
  obtain ⟨shared, values⟩ := s
  cases step with
  | set_value =>
    cases shared with
    | none =>
      refine ⟨Or.inr rfl, ?_⟩
      intro id v h
      exact absurd (hv id v h) (by simp)
    | some x => exact ⟨hs, hv⟩
  | worker j =>
    simp only [Step.apply, State.worker, State.get]
    split
    · rename_i hj
      cases shared with
      | none => exact ⟨hs, hv⟩
      | some x =>
        refine ⟨hs, ?_⟩
        intro id v h
        simp only at h
        by_cases hid : j = id
        · subst hid
          rw [List.getElem?_set_self'] at h
          rw [hj] at h
          have hx : x = v := Option.some.inj (Option.some.inj h)
          rw [hx]
        · rw [List.getElem?_set_ne hid] at h
          exact hv id v h
    · exact ⟨hs, hv⟩

theorem run_schedule_agree (schedule : List Step) :
    ∀ s : State, (s.shared = none ∨ s.shared = some 42) →
      (∀ (id : Nat) (v : Int), s.values[id]? = some (some v) → s.shared = some v) →
      ((run_schedule schedule s).shared = none ∨ (run_schedule schedule s).shared = some 42) ∧
      ∀ (id : Nat) (v : Int), (run_schedule schedule s).values[id]? = some (some v) →
        (run_schedule schedule s).shared = some v := by
  induction schedule with
  | nil => intro s hs hv; exact ⟨hs, hv⟩
  | cons step steps ih =>
    intro s hs hv
    obtain ⟨h1, h2⟩ := Step.apply_agree s step hs hv
    exact ih _ h1 h2

theorem init_agree (readers : Nat) :
    ((State.init readers).shared = none ∨ (State.init readers).shared = some 42) ∧
    ∀ (id : Nat) (v : Int), (State.init readers).values[id]? = some (some v) →
      (State.init readers).shared = some v := by
  refine ⟨Or.inl rfl, ?_⟩
  intro id v h
  simp only [State.init, List.getElem?_replicate] at h
  split_ifs at h
  simp at h

theorem read_value_eq (readers : Nat) (schedule : List Step) (id : Nat) (v : Int)
    (h : (run_schedule schedule (State.init readers)).values[id]? = some (some v)) :
    v = 42 := by
  obtain ⟨h1, h2⟩ := run_schedule_agree schedule _ (init_agree readers).1 (init_agree readers).2
  have h3 := h2 id v h
  rcases h1 with h1 | h1
  · rw [h1] at h3
    exact Option.noConfusion h3
  · rw [h1] at h3
    exact (Option.some.inj h3).symm

theorem blocked_before_set_value (schedule : List Step) :
    ∀ s : State, s.shared = none → Step.set_value ∉ schedule →
      run_schedule schedule s = s := by
  induction schedule with
  | nil => intro s _ _; rfl
  | cons step steps ih =>
    intro s hs hmem
    have hstep : step.apply s = s := by
      cases step with
      | set_value => exact absurd (List.mem_cons_self _ _) hmem
      | worker id =>
        simp only [Step.apply, State.worker, State.get, hs]
        split <;> rfl
    rw [run_schedule, hstep]
    exact ih s hs (fun h => hmem (List.mem_cons_of_mem _ h))

theorem Step.apply_keeps_ready (s : State) (step : Step) (v : Int) (hs : s.shared = some v) :
    (step.apply s).shared = some v ∧
    ∀ id : Nat, s.values[id]? = some (some v) → (step.apply s).values[id]? = some (some v) := by
  obtain ⟨shared, values⟩ := s
  simp only at hs
  subst hs
  cases step with
  | set_value => exact ⟨rfl, fun _ h => h⟩
  | worker j =>
    simp only [Step.apply, State.worker, State.get]
    split
    · refine ⟨rfl, ?_⟩
      intro id h
      simp only at h ⊢
      by_cases hid : j = id
      · subst hid
        rw [List.getElem?_set_self']
        rw [h]
        rfl
      · rw [List.getElem?_set_ne hid]
        exact h
    · exact ⟨rfl, fun _ h => h⟩

theorem run_schedule_keeps_ready (schedule : List Step) (v : Int) :
    ∀ s : State, s.shared = some v →
      (run_schedule schedule s).shared = some v ∧
      ∀ id : Nat, s.values[id]? = some (some v) →
        (run_schedule schedule s).values[id]? = some (some v) := by
  induction schedule with
  | nil => intro s hs; exact ⟨hs, fun _ h => h⟩
  | cons step steps ih =>
    intro s hs
    obtain ⟨h1, h2⟩ := Step.apply_keeps_ready s step v hs
    obtain ⟨k1, k2⟩ := ih _ h1
    exact ⟨k1, fun id h => k2 id (h2 id h)⟩

theorem worker_reads_ready (s : State) (id : Nat) (v : Int) (hs : s.shared = some v)
    (hid : id < s.values.length)
    (hv : ∀ (j : Nat) (x : Int), s.values[j]? = some (some x) → s.shared = some x) :
    (s.worker id).values[id]? = some (some v) := by
  obtain ⟨shared, values⟩ := s
  simp only at hs hid hv
  subst hs
  simp only [State.worker, State.get]
  split
  · simp only
    rw [List.getElem?_set_self hid]
  · rename_i hne
    cases hcur : values[id]? with
    | none =>
      rw [List.getElem?_eq_none_iff] at hcur
      omega
    | some cur =>
      cases cur with
      | none => exact absurd hcur (hne)
      | some x =>
        have := hv id x hcur
        rw [Option.some.inj this]

theorem reads_after_set_value (readers : Nat) (pre post : List Step) (id : Nat)
    (hid : id < readers) (hpost : Step.worker id ∈ post) :
    (run_schedule (pre ++ Step.set_value :: post) (State.init readers)).values[id]? =
      some (some 42) := by
  rw [run_schedule_append, run_schedule]
  obtain ⟨h1, h2⟩ := run_schedule_agree pre _ (init_agree readers).1 (init_agree readers).2
  have hlen := run_schedule_values_length pre (State.init readers)
  generalize run_schedule pre (State.init readers) = s at h1 h2 hlen
  have hset : (Step.apply s Step.set_value).shared = some 42 := by
    rcases h1 with h1 | h1 <;> simp [Step.apply, State.set_value, h1]
  obtain ⟨g1, g2⟩ := Step.apply_agree s Step.set_value h1 h2
  have glen : (Step.apply s Step.set_value).values.length = readers := by
    rw [Step.apply_values_length, hlen]
    simp [State.init]
  generalize Step.apply s Step.set_value = s1 at hset g1 g2 glen
  clear h1 h2 hlen s
  induction post generalizing s1 with
  | nil => exact absurd hpost (List.not_mem_nil _)
  | cons step steps ih =>
    rw [run_schedule]
    by_cases hstep : step = Step.worker id
    · subst hstep
      have hread := worker_reads_ready s1 id 42 hset (by omega) g2
      exact (run_schedule_keeps_ready steps 42 _
        (Step.apply_keeps_ready s1 (Step.worker id) 42 hset).1).2 id hread
    · have hmem : Step.worker id ∈ steps := by
        rcases List.mem_cons.mp hpost with h | h
        · exact absurd h.symm hstep
        · exact h
      obtain ⟨k1, k2⟩ := Step.apply_agree s1 step g1 g2
      exact ih hmem _ (Step.apply_keeps_ready s1 step 42 hset).1 k1 k2
        (by rw [Step.apply_values_length, glen])

/-- C13: in `shared_future_example` with any number of worker threads, each holding its own
copy of the shared future, and under every interleaving: a worker that has returned from
`get()` has read 42, the value of the one `set_value(42)`; no worker returns from `get()`
before `set_value`; and every worker that is given the processor after `set_value` reads
42, in whatever order the workers run.  With the three workers of the source, all blocked
in `get()` before the value is set, the one `set_value(42)` lets each of them read 42. -/
theorem shared_future_readers_agree :
    (∀ (readers : Nat) (schedule : List Step) (id : Nat) (v : Int),
      (run_schedule schedule (State.init readers)).values[id]? = some (some v) → v = 42) ∧
    (∀ (readers : Nat) (schedule : List Step), Step.set_value ∉ schedule →
      run_schedule schedule (State.init readers) = State.init readers) ∧
    (∀ (readers : Nat) (pre post : List Step) (id : Nat), id < readers →
      Step.worker id ∈ post →
      (run_schedule (pre ++ Step.set_value :: post) (State.init readers)).values[id]? =
        some (some 42)) ∧
    (∀ (readers : Nat) (schedule : List Step),
      (run_schedule schedule (State.init readers)).values.length = readers) ∧
    shared_future_example [Step.worker 0, Step.worker 1, Step.worker 2] =
      { shared := none, values := [none, none, none] } ∧
    shared_future_example
        [Step.worker 0, Step.worker 1, Step.worker 2, Step.set_value] =
      { shared := some 42, values := [none, none, none] } ∧
    shared_future_example
        [Step.worker 0, Step.worker 1, Step.worker 2, Step.set_value, Step.worker 2,
          Step.worker 0, Step.worker 1] =
      { shared := some 42, values := [some 42, some 42, some 42] } ∧
    shared_future_example
        [Step.worker 1, Step.set_value, Step.worker 0, Step.worker 1, Step.worker 2] =
      { shared := some 42, values := [some 42, some 42, some 42] } := by
  refine ⟨read_value_eq, fun readers schedule h => blocked_before_set_value schedule _ rfl h,
    reads_after_set_value, fun readers schedule => ?_, ?_, ?_, ?_, ?_⟩
  · rw [run_schedule_values_length]
    simp [State.init]
  all_goals decide

end SharedFuture

/-! ## Theorems: order of execution of the `TaskQueue`, removal from the `ThreadsafeQueue` -/

namespace FutureBasedTaskQueue

theorem run_in_order_logging {ε : Type} (labels : List Nat) :
    ∀ w : List Nat,
      (run_in_order (labels.map (fun label => (logging label : function_void (List Nat) ε)))
        w).2 = w ++ labels := by
  induction labels with
  | nil => intro w; simp [run_in_order]
  | cons label labels ih =>
    intro w
    simp only [List.map_cons, run_in_order, ih]
    simp [logging]

/-- C15: `post_task` puts the new task at the back of `tasks` and changes nothing else:
the tasks already queued, the futures already handed out, the stop flag and the world are
as before, so nothing is run.  A round of the worker on a queue that is not empty removes
the front task, runs it and no other, and leaves the tasks behind it in place.  Hence with
one worker, in every history, the tasks that have been run are the first `k` posted, run in
posting order, and those still queued are the others in posting order; tasks that log their
label are run in the order they were posted in. -/
theorem single_worker_runs_in_posting_order :
    (∀ (ω ε : Type) (tq : TaskQueue ω ε) (f : function_void ω ε),
      (tq.post_task f).2.tasks = tq.tasks ++ [{ f := f, state := tq.shared.length }] ∧
      (tq.post_task f).2.world = tq.world ∧
      (tq.post_task f).2.stop_flag = tq.stop_flag ∧
      (tq.post_task f).2.shared = tq.shared ++ [shared_state.pending] ∧
      ∀ res : Nat, res < tq.shared.length →
        (tq.post_task f).2.future_get res = tq.future_get res) ∧
    (∀ (ω ε : Type) (task : packaged_task ω ε) (rest : List (packaged_task ω ε))
      (shared : List (shared_state ε)) (world : ω),
      TaskQueue.worker_iteration
          { tasks := task :: rest, stop_flag := false, shared := shared, world := world } =
        some { tasks := rest, stop_flag := false,
               shared := shared.set task.state (shared_state.ready (task.f world).1),
               world := (task.f world).2 }) ∧
    (∀ (ω ε : Type) (w : ω) (evs : List (Event ω ε)),
      ∃ k : Nat, k ≤ (posted evs).length ∧
        (run_events evs (TaskQueue.init ε w)).tasks = tasks_from k ((posted evs).drop k) ∧
        (run_events evs (TaskQueue.init ε w)).world =
          (run_in_order ((posted evs).take k) w).2) ∧
    (∀ (ω ε : Type) (w : ω) (fs : List (function_void ω ε)) (n : Nat),
      ((run_events (fs.map Event.post_task) (TaskQueue.init ε w)).worker_thread n).world =
        (run_in_order (fs.take n) w).2 ∧
      ((run_events (fs.map Event.post_task) (TaskQueue.init ε w)).worker_thread n).tasks =
        tasks_from (fs.take n).length (fs.drop n)) ∧
    (∀ (ε : Type) (labels : List Nat) (n : Nat),
      ((run_events
          ((labels.map (fun label => (logging label : function_void (List Nat) ε))).map
            Event.post_task)
          (TaskQueue.init ε [])).worker_thread n).world = labels.take n) ∧
    ((run_events
        [Event.post_task (logging 7), Event.post_task (logging 3), Event.worker_iteration,
          Event.post_task (logging 5), Event.worker_iteration, Event.worker_iteration]
        (TaskQueue.init String [])).world = [7, 3, 5]) := by
  refine ⟨?_, ?_, ?_, ?_, ?_, rfl⟩
  · intro ω ε tq f
    refine ⟨rfl, rfl, rfl, rfl, ?_⟩
    intro res hres
    simp only [TaskQueue.future_get, TaskQueue.post_task]
    rw [List.getElem?_append_left hres]
  · intro ω ε task rest shared world
    rfl
  · intro ω ε w evs
    obtain ⟨k, h1, h2, h3, _⟩ := run_events_init_summary w evs
    exact ⟨k, h1, h2, h3⟩
  · intro ω ε w fs n
    exact ⟨(drained_reach w fs n).2.1, (drained_reach w fs n).1⟩
  · intro ε labels n
    rw [(drained_reach _ _ n).2.1, ← List.map_take, run_in_order_logging]
    simp

end FutureBasedTaskQueue

namespace ThreadSafeQueue

/-- C16: on every queue that is not empty the four removals agree: `try_pop(T&)`,
`try_pop()`, `wait_and_pop(T&)` and `wait_and_pop()` each hand out the current head, by
value or behind the returned pointer, and leave the old contents without its head. -/
theorem removal_operations_agree {T : Type} (q : ThreadsafeQueue T) (value : T)
    (h : q.data_queue ≠ []) :
    ∃ (front : T) (rest : List T), q.data_queue = front :: rest ∧
      q.try_pop_ref value = (true, front, { data_queue := rest }) ∧
      q.try_pop_ptr = (some front, { data_queue := rest }) ∧
      q.wait_and_pop_ref value = Outcome.returns (front, { data_queue := rest }) ∧
      q.wait_and_pop_ptr = Outcome.returns (front, { data_queue := rest }) := by
  obtain ⟨dq⟩ := q
  cases dq with
  | nil => exact absurd rfl h
  | cons front rest =>
    refine ⟨front, rest, rfl, rfl, rfl, ?_, rfl⟩
    simp [ThreadsafeQueue.wait_and_pop_ref, wait_pred_ref_eq_true]

/-- C16 on the queue holding 1, 2, 3: each of the four removals hands out 1 and leaves
2, 3. -/
theorem removal_operations_agree_witness :
    ({ data_queue := [1, 2, 3] } : ThreadsafeQueue Int).data_queue ≠ [] ∧
    (∃ (front : Int) (rest : List Int),
      ({ data_queue := [1, 2, 3] } : ThreadsafeQueue Int).data_queue = front :: rest ∧
      ({ data_queue := [1, 2, 3] } : ThreadsafeQueue Int).try_pop_ref 0 =
        (true, front, { data_queue := rest }) ∧
      ({ data_queue := [1, 2, 3] } : ThreadsafeQueue Int).try_pop_ptr =
        (some front, { data_queue := rest }) ∧
      ({ data_queue := [1, 2, 3] } : ThreadsafeQueue Int).wait_and_pop_ref 0 =
        Outcome.returns (front, { data_queue := rest }) ∧
      ({ data_queue := [1, 2, 3] } : ThreadsafeQueue Int).wait_and_pop_ptr =
        Outcome.returns (front, { data_queue := rest })) ∧
    ({ data_queue := [1, 2, 3] } : ThreadsafeQueue Int).try_pop_ref 0 =
      (true, 1, { data_queue := [2, 3] }) ∧
    ({ data_queue := [1, 2, 3] } : ThreadsafeQueue Int).try_pop_ptr =
      (some 1, { data_queue := [2, 3] }) ∧
    ({ data_queue := [1, 2, 3] } : ThreadsafeQueue Int).wait_and_pop_ref 0 =
      Outcome.returns (1, { data_queue := [2, 3] }) ∧
    ({ data_queue := [1, 2, 3] } : ThreadsafeQueue Int).wait_and_pop_ptr =
      Outcome.returns (1, { data_queue := [2, 3] }) :=
  ⟨by decide, removal_operations_agree ({ data_queue := [1, 2, 3] } : ThreadsafeQueue Int) 0
    (by decide),
    by decide, by decide, by decide, by decide⟩

end ThreadSafeQueue

/-! ## Theorems: the futures of a `TaskQueue` with any number of workers -/

namespace FutureBasedTaskQueue

end FutureBasedTaskQueue
